import Mathlib

/-!
Verification development for the usage synchronization / merge engine
(`internal/usage/sync.go`).

The Go code is shallowly embedded as executable Lean definitions:

* `ResourceUsage` / `UsageItem` / `UsageValue` model the usage tree data
  model (`UsageFile`, `ResourceUsage`, `UsageItem` of the spec).  Go's
  `interface{}`-typed `Value` / `DefaultValue` fields are modelled by the
  closed tagged type `UsageValue`; absence (Go `nil`) is `Option.none`.
* `mergeResourceUsages` embeds the recursive merge engine
  (`mergeResourceUsages`, sync.go lines 105-163).  Go mutates `dest` in
  place; the embedding returns the updated tree.  The one intentional
  abstraction of this pure model is that sub-trees are values, not
  pointers, so the aliasing performed by `destItem.Value = destItem.DefaultValue`
  (line 144) becomes a copy; the heap-accurate model in namespace `HeapModel`
  below embeds that statement literally for the sharing claim.
* `mergeResourceUsageWithUsageData` embeds the estimated-value merge-back
  (sync.go lines 165-233); `AttrVal` / `AttrMap` model the
  `map[string]gjson.Result` attribute map of `schema.UsageData` as the
  closed tagged-value type the spec prescribes.
* `sortResourceUsages`, `ruLess`, `indexOf`, `resourceUsageHasValue` embed
  the result-ordering step (sync.go lines 236-285).  Go's `sort.Slice` is
  an unspecified comparison sort; it is modelled by `List.insertionSort`
  with the non-strict relation induced by the Go comparator.
* `syncResourceUsages` / `SyncUsageData` embed the engine entry points
  (sync.go lines 22-103) by explicit state passing.

Collaborators that are not part of the given source (`schema.UsageData`
accessors, `ResourceUsage.Map`, `LoadReferenceFile`, `resourceUsagesMap`)
are modelled from the spec; each such definition carries a doc comment
starting with "Modelled from the spec:".
-/

namespace UsageSync

/-- The `schema.UsageItem` value-type enumeration
(`Int64`, `Float64`, `String`, `StringArray`, `SubResourceUsage`). -/
inductive ValueType : Type where
  | int64
  | float64
  | string
  | stringArray
  | subResourceUsage
  deriving DecidableEq, Repr

mutual

/-- A typed usage value.  Go stores these as `interface{}`; the spec asks for a
closed tagged type.  Go `float64` values are only ever stored and moved by the
sync engine, never computed with, so they are represented by `Rat`. -/
inductive UsageValue : Type where
  | int : Int → UsageValue
  | float : Rat → UsageValue
  | str : String → UsageValue
  | strArray : List String → UsageValue
  | sub : ResourceUsage → UsageValue
  deriving Repr

/-- `schema.UsageItem`: key, value type, description, optional default value,
optional value. -/
inductive UsageItem : Type where
  | mk : (key : String) → (valueType : ValueType) → (description : String) →
      (defaultValue : Option UsageValue) → (value : Option UsageValue) → UsageItem
  deriving Repr

/-- `usage.ResourceUsage`: a named ordered sequence of usage items. -/
inductive ResourceUsage : Type where
  | mk : (name : String) → (items : List UsageItem) → ResourceUsage
  deriving Repr

end

def UsageItem.key : UsageItem → String
  | .mk k _ _ _ _ => k

def UsageItem.valueType : UsageItem → ValueType
  | .mk _ t _ _ _ => t

def UsageItem.description : UsageItem → String
  | .mk _ _ d _ _ => d

def UsageItem.defaultValue : UsageItem → Option UsageValue
  | .mk _ _ _ dv _ => dv

def UsageItem.value : UsageItem → Option UsageValue
  | .mk _ _ _ _ v => v

def ResourceUsage.name : ResourceUsage → String
  | .mk n _ => n

def ResourceUsage.items : ResourceUsage → List UsageItem
  | .mk _ its => its

/-- Go's type assertion `v.(*ResourceUsage)`.  The assertion can only be
reached with a `*ResourceUsage` payload in invariant-respecting trees (a
value's shape matches its declared `SubResourceUsage` type); on any other
payload Go would panic, and this total model returns an empty tree. -/
def castRU : UsageValue → ResourceUsage
  | .sub r => r
  | _ => .mk "" []

/-- `usage.MergeResourceUsagesOpts`. -/
structure MergeResourceUsagesOpts where
  overrideValueType : Bool
  deriving DecidableEq, Repr

/-- Placeholder item used with `List.getD`; never actually selected because
every index passed to `getD` is in bounds. -/
def dfltItem : UsageItem := .mk "" .int64 "" none none

/-- Index of the destination item a source key is merged into: the Go map
`destItemMap` is built by `destItemMap[item.Key] = item` over `dest.Items`, so
for a duplicated key it holds the item stored last.  The map is built once,
before any new items are appended, and is consulted only through this
function. -/
def lastIdxOf (items : List UsageItem) (k : String) : Option Nat :=
  match items with
  | [] => none
  | it :: rest =>
    match lastIdxOf rest k with
    | some i => some (i + 1)
    | none => if it.key = k then some 0 else none

/-- The destination tree for the DefaultValue recursion (sync.go lines
133-138): the existing `dest` DefaultValue tree, or a fresh tree named after
the source DefaultValue when `dest` has none. -/
def destDVFor (d1 : UsageItem) (srcDefaultValue : ResourceUsage) : ResourceUsage :=
  match d1.defaultValue with
  | none => .mk srcDefaultValue.name []
  | some v => castRU v

/-- The destination tree for the Value recursion (sync.go lines 143-150): the
existing `dest` Value tree; else the (just default-merged) DefaultValue tree
(`destItem.Value = destItem.DefaultValue`, a pointer copy in Go, a value copy
here — see `HeapModel` for the pointer-accurate version); else a fresh tree
named after the source Value. -/
def destVFor (d2 : UsageItem) (srcValue : ResourceUsage) : ResourceUsage :=
  match d2.value with
  | some v => castRU v
  | none =>
    match d2.defaultValue with
    | some dv => castRU dv
    | none => .mk srcValue.name []

/-- The scalar/array half of the merge loop body (sync.go lines 153-161): a
present source DefaultValue or Value fully overwrites the destination
field. -/
def mergeScalarInto (d1 : UsageItem) (sdv sv : Option UsageValue) : UsageItem :=
  let d2 : UsageItem :=
    match sdv with
    | some v => .mk d1.key d1.valueType d1.description (some v) d1.value
    | none => d1
  match sv with
  | some v => .mk d2.key d2.valueType d2.description d2.defaultValue (some v)
  | none => d2

mutual

/-- Embedding of `mergeResourceUsages` (sync.go lines 105-163).  Go mutates
`dest`; the embedding returns the updated tree.  The `dest == nil` /
`src == nil` guard of line 106 is a defensive no-op and is represented by the
callers simply not calling the merge (sync.go always passes non-nil trees,
guarded by `!= nil` checks that the embedding performs with `Option.match`). -/
def mergeResourceUsages (dest : ResourceUsage) (src : ResourceUsage)
    (opts : MergeResourceUsagesOpts) : ResourceUsage :=
  match src with
  | .mk _ sitems => .mk dest.name (mergeItemsGo dest.items [] sitems opts)
termination_by sizeOf src

/-- The `for _, srcItem := range src.Items` loop of `mergeResourceUsages`:
`orig` are the destination items the key map was built from (mutated in
place), `extra` the items appended for unknown keys (never found by the map
lookups). -/
def mergeItemsGo (orig : List UsageItem) (extra : List UsageItem)
    (sitems : List UsageItem) (opts : MergeResourceUsagesOpts) : List UsageItem :=
  match sitems with
  | [] => orig ++ extra
  | s :: rest =>
    match lastIdxOf orig s.key with
    | some i =>
      mergeItemsGo (orig.set i (mergeItemInto (orig.getD i dfltItem) s opts)) extra rest opts
    | none =>
      mergeItemsGo orig
        (extra ++ [mergeItemInto (.mk s.key s.valueType "" none none) s opts]) rest opts
termination_by sizeOf sitems

/-- The body of the merge loop for one source item (sync.go lines 122-161),
acting on the destination item `d` (either the looked-up item or the freshly
created `{Key: srcItem.Key, ValueType: srcItem.ValueType}`). -/
def mergeItemInto (d : UsageItem) (s : UsageItem) (opts : MergeResourceUsagesOpts) :
    UsageItem :=
  match s with
  | .mk _ svt sdesc sdv sv =>
    let d1 : UsageItem :=
      .mk d.key (if opts.overrideValueType then svt else d.valueType)
        (if sdesc ≠ "" then sdesc else d.description) d.defaultValue d.value
    if svt = ValueType.subResourceUsage then
      mergeSubValueInto (mergeSubDefaultInto d1 sdv opts) sv opts
    else
      mergeScalarInto d1 sdv sv
termination_by sizeOf s

/-- The `SubResourceUsage` DefaultValue branch (sync.go lines 131-139).
Where Go would panic on a type assertion of a scalar payload, the item is
left unchanged. -/
def mergeSubDefaultInto (d1 : UsageItem) (sdv : Option UsageValue)
    (opts : MergeResourceUsagesOpts) : UsageItem :=
  match sdv with
  | some (.sub srcDefaultValue) =>
    .mk d1.key d1.valueType d1.description
      (some (.sub (mergeResourceUsages (destDVFor d1 srcDefaultValue)
        srcDefaultValue opts))) d1.value
  | some (.int _) => d1
  | some (.float _) => d1
  | some (.str _) => d1
  | some (.strArray _) => d1
  | none => d1
termination_by sizeOf sdv

/-- The `SubResourceUsage` Value branch (sync.go lines 141-152), applied
after the DefaultValue branch.  Where Go would panic on a type assertion of a
scalar payload, the item is left unchanged. -/
def mergeSubValueInto (d2 : UsageItem) (sv : Option UsageValue)
    (opts : MergeResourceUsagesOpts) : UsageItem :=
  match sv with
  | some (.sub srcValue) =>
    .mk d2.key d2.valueType d2.description d2.defaultValue
      (some (.sub (mergeResourceUsages (destVFor d2 srcValue) srcValue opts)))
  | some (.int _) => d2
  | some (.float _) => d2
  | some (.str _) => d2
  | some (.strArray _) => d2
  | none => d2
termination_by sizeOf sv

end

/-- Raw attribute values as seen through `gjson.Result` in `schema.UsageData`.
Modelled from the spec: the untyped key-to-value buffer shared between the
estimation call and the merge-back step is "a closed tagged-value type
(null | int | float | string | string-array | nested-mapping)"; a key that is
missing and a key that is explicitly null are both `gjson.Null` and are both
represented by `AttrVal.null`. -/
inductive AttrVal : Type where
  | null
  | int (n : Int)
  | float (q : Rat)
  | str (s : String)
  | strArray (xs : List String)
  | map (entries : List (String × AttrVal))
  deriving Repr

def AttrVal.isNull : AttrVal → Bool
  | .null => true
  | _ => false

/-- Entries of `AttrVal.map` viewed as a sub-map, mirroring gjson's
`Result.Map()` which yields the empty map on any non-object value. -/
def AttrVal.mapEntries : AttrVal → List (String × AttrVal)
  | .map entries => entries
  | _ => []

/-- Lookup in an attribute map.  A Go `map[string]...` has unique keys, which
an association list models with first-match lookup; a missing key reads as
`gjson.Null`. -/
def attrGet (m : List (String × AttrVal)) (k : String) : AttrVal :=
  match m with
  | [] => .null
  | (k', v) :: rest => if k' = k then v else attrGet rest k

/-- Assignment `m[k] = v` on a Go map: replace the entry if the key is
present, otherwise append it. -/
def attrSet (m : List (String × AttrVal)) (k : String) (v : AttrVal) :
    List (String × AttrVal) :=
  match m with
  | [] => [(k, v)]
  | (k', v') :: rest => if k' = k then (k, v) :: rest else (k', v') :: attrSet rest k v

/-- Modelled from the spec: `schema.UsageData` is "a typed read accessor over
a raw attribute map", created by `schema.NewUsageData(address, attributes)`. -/
structure UsageData where
  address : String
  attributes : List (String × AttrVal)

/-- Modelled from the spec: `UsageData.Get(key)` exposes the raw sub-node for
nested map access and a null check. -/
def UsageData.get (u : UsageData) (k : String) : AttrVal :=
  attrGet u.attributes k

/-- Modelled from the spec: `GetInt(key) -> optional typed value`; a null (or
missing) lookup is absent. -/
def UsageData.getInt (u : UsageData) (k : String) : Option Int :=
  match u.get k with
  | .int n => some n
  | _ => none

/-- Modelled from the spec: `GetFloat(key) -> optional typed value`. -/
def UsageData.getFloat (u : UsageData) (k : String) : Option Rat :=
  match u.get k with
  | .float q => some q
  | _ => none

/-- Modelled from the spec: `GetString(key) -> optional typed value`. -/
def UsageData.getString (u : UsageData) (k : String) : Option String :=
  match u.get k with
  | .str s => some s
  | _ => none

/-- Modelled from the spec: `GetStringArray(key) -> optional typed value`. -/
def UsageData.getStringArray (u : UsageData) (k : String) : Option (List String) :=
  match u.get k with
  | .strArray xs => some xs
  | _ => none

theorem sizeOf_filter_le (p : UsageItem → Bool) (l : List UsageItem) :
    sizeOf (l.filter p) ≤ sizeOf l := by
  induction l with
  | nil => simp [List.filter]
  | cons a l ih =>
    simp only [List.filter]
    cases p a <;> simp <;> omega

mutual

/-- Embedding of `mergeResourceUsageWithUsageData` (sync.go lines 165-233).
The `usageData == nil` guard of line 166 never fires in the sync pass (line 91
always constructs a `UsageData`), so the embedding takes the data directly. -/
def mergeResourceUsageWithUsageData (r : ResourceUsage) (u : UsageData) :
    ResourceUsage :=
  match r with
  | .mk n its => .mk n (mergeItemsWithUsageData its u)
termination_by sizeOf r

/-- The `for _, item := range resourceUsage.Items` loop of
`mergeResourceUsageWithUsageData`. -/
def mergeItemsWithUsageData (items : List UsageItem) (u : UsageData) :
    List UsageItem :=
  match items with
  | [] => []
  | it :: rest => mergeItemWithUsageData it u :: mergeItemsWithUsageData rest u
termination_by sizeOf items

/-- The loop body of `mergeResourceUsageWithUsageData` for one item
(sync.go lines 170-232): type-directed extraction; null (or missing) lookups
leave the field untouched. -/
def mergeItemWithUsageData (it : UsageItem) (u : UsageData) : UsageItem :=
  match it with
  | .mk k vt desc dv v =>
    match vt with
    | .int64 =>
      match u.getInt k with
      | some n => .mk k vt desc dv (some (.int n))
      | none => .mk k vt desc dv v
    | .float64 =>
      match u.getFloat k with
      | some q => .mk k vt desc dv (some (.float q))
      | none => .mk k vt desc dv v
    | .string =>
      match u.getString k with
      | some st => .mk k vt desc dv (some (.str st))
      | none => .mk k vt desc dv v
    | .stringArray =>
      match u.getStringArray k with
      | some xs => .mk k vt desc dv (some (.strArray xs))
      | none => .mk k vt desc dv v
    | .subResourceUsage => mergeSubItemWithUsageData k desc dv v u
termination_by sizeOf it

/-- The `SubResourceUsage` case of the loop body (sync.go lines 190-226): an
existing Value sub-tree is used as the merge base; otherwise a DefaultValue
sub-tree is materialized holding exactly those default sub-items whose key is
non-null in the estimation output, and only when at least one qualifies.  The
recursive node-level merge of a constructed node `{Name: k, Items: kept}` is
written at the items level (`UsageItem.mk k (mergeItemsWithUsageData kept ...)`),
which is the same tree by the first equation of `mergeResourceUsageWithUsageData`.
Where Go would panic on a type assertion of a scalar payload, the item is left
unchanged. -/
def mergeSubItemWithUsageData (k : String) (desc : String)
    (dv v : Option UsageValue) (u : UsageData) : UsageItem :=
  let subU : UsageData := ⟨k, (u.get k).mapEntries⟩
  match v with
  | some (.sub base) =>
    .mk k .subResourceUsage desc dv
      (some (.sub (mergeResourceUsageWithUsageData base subU)))
  | some (.int _) => .mk k .subResourceUsage desc dv v
  | some (.float _) => .mk k .subResourceUsage desc dv v
  | some (.str _) => .mk k .subResourceUsage desc dv v
  | some (.strArray _) => .mk k .subResourceUsage desc dv v
  | none =>
    match dv with
    | some (.sub (.mk _dn ditems)) =>
      let kept := ditems.filter (fun si => !((subU.get si.key).isNull))
      if kept.isEmpty then .mk k .subResourceUsage desc dv v
      else
        .mk k .subResourceUsage desc dv
          (some (.sub (.mk k (mergeItemsWithUsageData kept subU))))
    | some (.int _) => .mk k .subResourceUsage desc dv v
    | some (.float _) => .mk k .subResourceUsage desc dv v
    | some (.str _) => .mk k .subResourceUsage desc dv v
    | some (.strArray _) => .mk k .subResourceUsage desc dv v
    | none => .mk k .subResourceUsage desc dv v
termination_by sizeOf dv + sizeOf v
decreasing_by
  all_goals simp_wf
  all_goals try omega
  all_goals
    refine Nat.lt_of_le_of_lt (sizeOf_filter_le _ _) ?_
  all_goals omega

end

mutual

/-- Modelled from the spec: `ResourceUsage.Map()`, the key-to-value map of a
resource usage tree handed to the estimation capability and used "to expose an
already-synced resource's map for nested lookups".  Per the spec's absence
rule ("absence (nil) is distinct from a present-but-empty value and must never
be conflated"), an item contributes an entry exactly when its `Value` is
present; a `SubResourceUsage` value contributes a nested map. -/
def ResourceUsage.toMap (r : ResourceUsage) : List (String × AttrVal) :=
  match r with
  | .mk _ its => itemsToMap its []
termination_by sizeOf r

/-- Accumulating loop of `ResourceUsage.toMap` over the items. -/
def itemsToMap (items : List UsageItem) (acc : List (String × AttrVal)) :
    List (String × AttrVal) :=
  match items with
  | [] => acc
  | .mk k _ _ _ (some vv) :: rest => itemsToMap rest (attrSet acc k (usageValToAttr vv))
  | .mk _ _ _ _ none :: rest => itemsToMap rest acc
termination_by sizeOf items

/-- Modelled from the spec: the tagged attribute corresponding to a typed
usage value. -/
def usageValToAttr : UsageValue → AttrVal
  | .int n => .int n
  | .float q => .float q
  | .str s => .str s
  | .strArray xs => .strArray xs
  | .sub r => .map r.toMap
termination_by v => sizeOf v

end

/-- Embedding of `indexOf` (sync.go lines 278-285): first index of `s` in
`arr`, `-1` when absent. -/
def indexOf (s : String) (arr : List String) : Int :=
  match arr with
  | [] => -1
  | v :: rest =>
    if s = v then 0
    else
      let r := indexOf s rest
      if r = -1 then -1 else r + 1

/-- Embedding of `resourceUsageHasValue` (sync.go lines 269-276). -/
def resourceUsageHasValue (r : ResourceUsage) : Bool :=
  r.items.any (fun it => it.value.isSome)

/-- Embedding of the `sort.Slice` comparator of `sortResourceUsages`
(sync.go lines 237-266). -/
def ruLess (existingOrder : List String) (a b : ResourceUsage) : Bool :=
  let iIdx := indexOf a.name existingOrder
  let jIdx := indexOf b.name existingOrder
  if iIdx ≠ -1 ∧ jIdx ≠ -1 then
    iIdx < jIdx
  else if iIdx = -1 ∧ jIdx ≠ -1 then
    false
  else if jIdx = -1 ∧ iIdx ≠ -1 then
    true
  else
    let iHas := resourceUsageHasValue a
    let jHas := resourceUsageHasValue b
    if iHas ∧ ¬jHas then true
    else if jHas ∧ ¬iHas then false
    else a.name < b.name

/-- Embedding of `sortResourceUsages` (sync.go lines 236-267).  Go's
`sort.Slice` applies an unspecified, possibly unstable comparison sort; any
result it may produce is ordered by the non-strict relation
`fun a b => ¬ ruLess existingOrder b a`, and the embedding realizes that
contract with `List.insertionSort` on this relation. -/
def sortResourceUsages (resourceUsages : List ResourceUsage)
    (existingOrder : List String) : List ResourceUsage :=
  List.insertionSort (fun a b => ruLess existingOrder b a = false) resourceUsages


/-- The outcome of one estimation call.  Go's `EstimateUsage(ctx, map)`
receives the usage map by reference, may mutate it, and returns an error or
nil; the embedding returns the (possibly mutated) map it leaves behind
together with the optional error. -/
def EstimateResult : Type := Option String × List (String × AttrVal)

/-- The slice of `schema.Resource` fields the sync engine reads: `Name`,
`UsageSchema`, and the optional `EstimateUsage` capability (absence means
"not estimable").  The capability itself is an opaque external function of
the current usage map. -/
structure Resource where
  name : String
  usageSchema : List UsageItem
  estimateUsage : Option (List (String × AttrVal) → EstimateResult)

/-- The slice of `schema.Project` the engine reads: its resource list. -/
structure Project where
  resources : List Resource

/-- `usage.UsageFile`: the ordered resource usages of the persisted usage
file (the engine reads and rewrites only this in-memory list). -/
structure UsageFile where
  resourceUsages : List ResourceUsage

/-- Modelled from the spec: the reference usage file after its one-time
`LoadReferenceFile()` + `SetDefaultValues()` initialization, exposing
`FindMatchingResourceUsage(name) -> ResourceUsage or absent`. -/
structure ReferenceFile where
  findMatchingResourceUsage : String → Option ResourceUsage

/-- `usage.SyncResult`.  The Go `EstimationErrors` map keyed by resource name
is modelled as the association list of `(name, error)` pairs in recording
order (resource names are distinct in any one project set). -/
structure SyncResult where
  resourceCount : Nat
  estimationCount : Nat
  estimationErrors : List (String × String)

/-- Modelled from the spec: `resourceUsagesMap` indexes the usage file's
entries by resource name (a Go map built in list order, so a duplicated name
holds the entry stored last). -/
def resourceUsagesMap (resourceUsages : List ResourceUsage) :
    String → Option ResourceUsage :=
  fun n => (resourceUsages.filter (fun r => r.name = n)).getLast?

/-- The static part of the per-resource sync (sync.go lines 55-77): start
from an empty tree named after the resource, merge the reference usage
schema (if any), merge the resource's own usage schema with
`OverrideValueType: true`, then merge any existing usage for that name. -/
def buildResourceUsage (referenceFile : ReferenceFile)
    (existingMap : String → Option ResourceUsage) (resource : Resource) :
    ResourceUsage :=
  let r0 : ResourceUsage := .mk resource.name []
  let r1 :=
    match referenceFile.findMatchingResourceUsage resource.name with
    | some refResourceUsage => mergeResourceUsages r0 refResourceUsage ⟨false⟩
    | none => r0
  let r2 := mergeResourceUsages r1 (.mk resource.name resource.usageSchema) ⟨true⟩
  match existingMap resource.name with
  | some existingResourceUsage => mergeResourceUsages r2 existingResourceUsage ⟨false⟩
  | none => r2

/-- Accumulator of the resource loop of `syncResourceUsages`. -/
structure SyncState where
  resourceCount : Nat
  estimationCount : Nat
  estimationErrors : List (String × String)
  resourceUsages : List ResourceUsage

/-- One iteration of the resource loop (sync.go lines 54-96): build the
merged tree; if the resource has an estimation capability, call it on the
tree's map and merge the map it leaves behind back into the tree (this
merge-back runs whether or not the call returned an error; an error is
recorded against the resource name). -/
def syncStep (referenceFile : ReferenceFile)
    (existingMap : String → Option ResourceUsage) (st : SyncState)
    (resource : Resource) : SyncState :=
  let resourceUsage := buildResourceUsage referenceFile existingMap resource
  match resource.estimateUsage with
  | none =>
    { st with
      resourceCount := st.resourceCount + 1
      resourceUsages := st.resourceUsages ++ [resourceUsage] }
  | some estimate =>
    let resourceUsageMap := resourceUsage.toMap
    let result := estimate resourceUsageMap
    let errs :=
      match result.1 with
      | some e => st.estimationErrors ++ [(resource.name, e)]
      | none => st.estimationErrors
    let estimatedUsageData : UsageData := ⟨resource.name, result.2⟩
    let merged := mergeResourceUsageWithUsageData resourceUsage estimatedUsageData
    { resourceCount := st.resourceCount + 1
      estimationCount := st.estimationCount + 1
      estimationErrors := errs
      resourceUsages := st.resourceUsages ++ [merged] }

/-- Embedding of `syncResourceUsages` (sync.go lines 40-103): record the
existing order, run the per-resource loop, sort, and replace the usage
file's entries wholesale. -/
def syncResourceUsages (usageFile : UsageFile) (resources : List Resource)
    (referenceFile : ReferenceFile) : SyncResult × UsageFile :=
  let existingMap := resourceUsagesMap usageFile.resourceUsages
  let existingOrder := usageFile.resourceUsages.map (fun r => r.name)
  let st := resources.foldl (syncStep referenceFile existingMap) ⟨0, 0, [], []⟩
  let sorted := sortResourceUsages st.resourceUsages existingOrder
  (⟨st.resourceCount, st.estimationCount, st.estimationErrors⟩, ⟨sorted⟩)

/-- Embedding of `SyncUsageData` (sync.go lines 22-38).  `LoadReferenceFile()`
(plus its follow-up `SetDefaultValues()`) is an external collaborator whose
outcome is passed in: an IO/parse error, or the initialized reference file.
On a load error the sync aborts with that error; otherwise the resources of
all projects are concatenated and synced. -/
def SyncUsageData (loadReferenceFile : Except String ReferenceFile)
    (usageFile : UsageFile) (projects : List Project) :
    Except String (SyncResult × UsageFile) :=
  match loadReferenceFile with
  | .error e => .error e
  | .ok referenceFile =>
    let resources := projects.foldl (fun acc p => acc ++ p.resources) []
    .ok (syncResourceUsages usageFile resources referenceFile)


namespace HeapModel

/-!
Heap-accurate model of `mergeResourceUsages` for the sharing behavior of
sync.go line 144 (`destItem.Value = destItem.DefaultValue`): destination
sub-trees are heap cells addressed by `Nat`, so that assigning the
`DefaultValue` pointer into `Value` makes both fields denote one object, and
the recursive merge into `Value` is visible through `DefaultValue`.  The
source tree of a merge is read-only in Go and stays a pure `ResourceUsage`
value here.
-/

/-- A destination-side item payload: either an immutable snapshot of a source
value (scalars are only ever copied wholesale) or a reference to a mutable
heap-allocated sub-tree. -/
inductive HValue : Type where
  | pure (v : UsageValue)
  | ref (a : Nat)

/-- Destination-side `schema.UsageItem` whose sub-trees live in the heap. -/
structure HItem where
  key : String
  valueType : ValueType
  description : String
  defaultValue : Option HValue
  value : Option HValue

/-- Destination-side `usage.ResourceUsage` heap node. -/
structure HNode where
  name : String
  items : List HItem

/-- A heap of `ResourceUsage` nodes with an allocation counter. -/
structure Heap where
  next : Nat
  mem : List (Nat × HNode)

/-- Read a node; a dangling address reads as an empty node (never exercised
by the theorems below). -/
def Heap.get (h : Heap) (a : Nat) : HNode :=
  match h.mem.find? (fun e => e.1 = a) with
  | some e => e.2
  | none => ⟨"", []⟩

/-- Overwrite the node at an address. -/
def Heap.set (h : Heap) (a : Nat) (n : HNode) : Heap :=
  ⟨h.next, (a, n) :: h.mem⟩

/-- Allocate a fresh node, returning its address. -/
def Heap.alloc (h : Heap) (n : HNode) : Nat × Heap :=
  (h.next, ⟨h.next + 1, (h.next, n) :: h.mem⟩)

/-- Placeholder item for `List.getD`; never selected at an in-bounds index. -/
def hDfltItem : HItem := ⟨"", .int64, "", none, none⟩

/-- `lastIdxOf` over destination-side items (the Go `destItemMap`, built
last-wins over the original destination items). -/
def hLastIdxOf (items : List HItem) (k : String) : Option Nat :=
  match items with
  | [] => none
  | it :: rest =>
    match hLastIdxOf rest k with
    | some i => some (i + 1)
    | none => if it.key = k then some 0 else none

/-- Scalar/array half of the heap-level loop body (sync.go lines 153-161):
source values are copied wholesale as immutable snapshots. -/
def hScalarInto (d1 : HItem) (sdv sv : Option UsageValue) : HItem :=
  let d2 : HItem :=
    match sdv with
    | some v => { d1 with defaultValue := some (.pure v) }
    | none => d1
  match sv with
  | some v => { d2 with value := some (.pure v) }
  | none => d2

mutual

/-- Heap-level `mergeResourceUsages` (sync.go lines 105-163): merge the pure
source tree `src` into the destination node at `destA`, mutating the heap. -/
def mergeH (h : Heap) (destA : Nat) (src : ResourceUsage)
    (opts : MergeResourceUsagesOpts) : Heap :=
  match src with
  | .mk _ sitems =>
    let node := h.get destA
    let res := mergeItemsH h node.items [] sitems opts
    res.1.set destA ⟨node.name, res.2.1 ++ res.2.2⟩
termination_by sizeOf src

/-- Heap-level merge loop over the source items. -/
def mergeItemsH (h : Heap) (orig extra : List HItem) (sitems : List UsageItem)
    (opts : MergeResourceUsagesOpts) : Heap × List HItem × List HItem :=
  match sitems with
  | [] => (h, orig, extra)
  | s :: rest =>
    match hLastIdxOf orig s.key with
    | some i =>
      let r := mergeItemIntoH h (orig.getD i hDfltItem) s opts
      mergeItemsH r.1 (orig.set i r.2) extra rest opts
    | none =>
      let r := mergeItemIntoH h ⟨s.key, s.valueType, "", none, none⟩ s opts
      mergeItemsH r.1 orig (extra ++ [r.2]) rest opts
termination_by sizeOf sitems

/-- Heap-level merge of one source item into one destination item
(sync.go lines 122-161). -/
def mergeItemIntoH (h : Heap) (d : HItem) (s : UsageItem)
    (opts : MergeResourceUsagesOpts) : Heap × HItem :=
  match s with
  | .mk _ svt sdesc sdv sv =>
    let d1 : HItem :=
      ⟨d.key, (if opts.overrideValueType then svt else d.valueType),
        (if sdesc ≠ "" then sdesc else d.description), d.defaultValue, d.value⟩
    if svt = ValueType.subResourceUsage then
      hSubValueInto (hSubDefaultInto h d1 sdv opts).1
        (hSubDefaultInto h d1 sdv opts).2 sv opts
    else
      (h, hScalarInto d1 sdv sv)
termination_by sizeOf s

/-- Heap-level `SubResourceUsage` DefaultValue branch (sync.go lines
131-139).  Branches Go can only reach by panicking on a failed type
assertion leave heap and item unchanged. -/
def hSubDefaultInto (h : Heap) (d1 : HItem) (sdv : Option UsageValue)
    (opts : MergeResourceUsagesOpts) : Heap × HItem :=
  match sdv with
  | some (.sub srcDefaultValue) =>
    match d1.defaultValue with
    | none =>
      let al := h.alloc ⟨srcDefaultValue.name, []⟩
      (mergeH al.2 al.1 srcDefaultValue opts,
       { d1 with defaultValue := some (.ref al.1) })
    | some (.ref a) => (mergeH h a srcDefaultValue opts, d1)
    | some (.pure _) => (h, d1)
  | some (.int _) => (h, d1)
  | some (.float _) => (h, d1)
  | some (.str _) => (h, d1)
  | some (.strArray _) => (h, d1)
  | none => (h, d1)
termination_by sizeOf sdv

/-- Heap-level `SubResourceUsage` Value branch (sync.go lines 141-152).
Line 144 is embedded literally: when the destination value is absent, the
DefaultValue *reference* itself is copied into Value, and the subsequent
recursive merge mutates the node both fields now denote. -/
def hSubValueInto (h : Heap) (d2 : HItem) (sv : Option UsageValue)
    (opts : MergeResourceUsagesOpts) : Heap × HItem :=
  match sv with
  | some (.sub srcValue) =>
    match d2.value with
    | some (.ref a) => (mergeH h a srcValue opts, d2)
    | some (.pure _) => (h, d2)
    | none =>
      match d2.defaultValue with
      | some (.ref a) =>
        (mergeH h a srcValue opts, { d2 with value := some (.ref a) })
      | some (.pure _) => (h, d2)
      | none =>
        let al := h.alloc ⟨srcValue.name, []⟩
        (mergeH al.2 al.1 srcValue opts, { d2 with value := some (.ref al.1) })
  | some (.int _) => (h, d2)
  | some (.float _) => (h, d2)
  | some (.str _) => (h, d2)
  | some (.strArray _) => (h, d2)
  | none => (h, d2)
termination_by sizeOf sv

end

end HeapModel


/-! ### Basic invariant predicates and accessor lemmas -/

@[simp] theorem UsageItem.key_mk (k : String) (vt : ValueType) (ds : String)
    (dv v : Option UsageValue) : (UsageItem.mk k vt ds dv v).key = k := rfl

@[simp] theorem UsageItem.valueType_mk (k : String) (vt : ValueType) (ds : String)
    (dv v : Option UsageValue) : (UsageItem.mk k vt ds dv v).valueType = vt := rfl

@[simp] theorem UsageItem.description_mk (k : String) (vt : ValueType) (ds : String)
    (dv v : Option UsageValue) : (UsageItem.mk k vt ds dv v).description = ds := rfl

@[simp] theorem UsageItem.defaultValue_mk (k : String) (vt : ValueType) (ds : String)
    (dv v : Option UsageValue) : (UsageItem.mk k vt ds dv v).defaultValue = dv := rfl

@[simp] theorem UsageItem.value_mk (k : String) (vt : ValueType) (ds : String)
    (dv v : Option UsageValue) : (UsageItem.mk k vt ds dv v).value = v := rfl

@[simp] theorem ResourceUsage.name_mk (n : String) (its : List UsageItem) :
    (ResourceUsage.mk n its).name = n := rfl

@[simp] theorem ResourceUsage.items_mk (n : String) (its : List UsageItem) :
    (ResourceUsage.mk n its).items = its := rfl

/-- The keys of an item list, in order. -/
def itemKeys (items : List UsageItem) : List String :=
  items.map (fun it => it.key)

mutual

/-- Recursive form of the spec invariant "item keys unique per
ResourceUsage", down through every nested `DefaultValue` / `Value` tree. -/
def uniqKeysRU : ResourceUsage → Bool
  | .mk _ its => decide (itemKeys its).Nodup && uniqKeysItems its
termination_by r => sizeOf r

/-- `uniqKeysRU` over a list of items. -/
def uniqKeysItems : List UsageItem → Bool
  | [] => true
  | it :: rest => uniqKeysItem it && uniqKeysItems rest
termination_by its => sizeOf its

/-- `uniqKeysRU` for the two optional payloads of one item. -/
def uniqKeysItem : UsageItem → Bool
  | .mk _ _ _ dv v => uniqKeysOptVal dv && uniqKeysOptVal v
termination_by it => sizeOf it

/-- `uniqKeysRU` of the tree held by an optional payload (scalars hold no
tree). -/
def uniqKeysOptVal : Option UsageValue → Bool
  | some (.sub r) => uniqKeysRU r
  | _ => true
termination_by v => sizeOf v

end

mutual

/-- The part of the spec invariant "a Value's shape must match its declared
ValueType", together with key uniqueness, restricted to the `Value` side of
every level: what the round trip through `ResourceUsage.toMap` preserves. -/
def wfRU : ResourceUsage → Bool
  | .mk _ its => decide (itemKeys its).Nodup && wfItems its
termination_by r => sizeOf r

/-- `wfRU` over a list of items. -/
def wfItems : List UsageItem → Bool
  | [] => true
  | it :: rest => wfItem it && wfItems rest
termination_by its => sizeOf its

/-- A present `Value` has the declared shape (absent values are
unconstrained). -/
def wfItem : UsageItem → Bool
  | .mk _ _ _ _ none => true
  | .mk _ .int64 _ _ (some (.int _)) => true
  | .mk _ .int64 _ _ (some (.float _)) => false
  | .mk _ .int64 _ _ (some (.str _)) => false
  | .mk _ .int64 _ _ (some (.strArray _)) => false
  | .mk _ .int64 _ _ (some (.sub _)) => false
  | .mk _ .float64 _ _ (some (.int _)) => false
  | .mk _ .float64 _ _ (some (.float _)) => true
  | .mk _ .float64 _ _ (some (.str _)) => false
  | .mk _ .float64 _ _ (some (.strArray _)) => false
  | .mk _ .float64 _ _ (some (.sub _)) => false
  | .mk _ .string _ _ (some (.int _)) => false
  | .mk _ .string _ _ (some (.float _)) => false
  | .mk _ .string _ _ (some (.str _)) => true
  | .mk _ .string _ _ (some (.strArray _)) => false
  | .mk _ .string _ _ (some (.sub _)) => false
  | .mk _ .stringArray _ _ (some (.int _)) => false
  | .mk _ .stringArray _ _ (some (.float _)) => false
  | .mk _ .stringArray _ _ (some (.str _)) => false
  | .mk _ .stringArray _ _ (some (.strArray _)) => true
  | .mk _ .stringArray _ _ (some (.sub _)) => false
  | .mk _ .subResourceUsage _ _ (some (.int _)) => false
  | .mk _ .subResourceUsage _ _ (some (.float _)) => false
  | .mk _ .subResourceUsage _ _ (some (.str _)) => false
  | .mk _ .subResourceUsage _ _ (some (.strArray _)) => false
  | .mk _ .subResourceUsage _ _ (some (.sub r)) => wfRU r
termination_by it => sizeOf it

end

/-! ### C9: the entry point fails exactly when the reference file load fails -/

/-- C9.  `SyncUsageData(usageFile, projects)` returns a non-nil error if and
only if loading the reference schema file fails (and it propagates exactly
that error); whenever the reference file loads, it returns a `SyncResult`
and a nil error, for arbitrary projects and hence regardless of how many
per-resource estimation capabilities fail. -/
theorem c9_syncUsageData_error_iff_load_error :
    ∀ (load : Except String ReferenceFile) (usageFile : UsageFile)
      (projects : List Project),
      (∃ e, load = Except.error e ∧
        SyncUsageData load usageFile projects = Except.error e) ∨
      (∃ referenceFile result, load = Except.ok referenceFile ∧
        SyncUsageData load usageFile projects = Except.ok result) := by
  intro load usageFile projects
  cases load with
  | error e => exact Or.inl ⟨e, rfl, rfl⟩
  | ok referenceFile =>
    exact Or.inr ⟨referenceFile, _, rfl, rfl⟩



/-! ### C2: the result ordering -/

/-- Rank of a name in the pre-sync persisted order, written from the claim:
the original relative position when the name appears, absent otherwise. -/
def rankInOrder (existingOrder : List String) (n : String) : Option Nat :=
  match existingOrder with
  | [] => none
  | v :: rest => if n = v then some 0 else (rankInOrder rest n).map (fun i => i + 1)

/-- Written from the claim: a resource "holding at least one non-absent Value
in its Items". -/
def specHasValue (r : ResourceUsage) : Prop :=
  ∃ it ∈ r.items, it.value.isSome

/-- The strict "must come before" order of the claim: persisted resources
first, ranked by original relative position; among the rest, value-bearing
resources first; remaining ties by ascending lexicographic name. -/
def specLess (existingOrder : List String) (a b : ResourceUsage) : Prop :=
  match rankInOrder existingOrder a.name, rankInOrder existingOrder b.name with
  | some i, some j => i < j
  | some _, none => True
  | none, some _ => False
  | none, none =>
    (specHasValue a ∧ ¬specHasValue b) ∨
      ((specHasValue a ↔ specHasValue b) ∧ a.name < b.name)

theorem indexOf_eq_rank (n : String) (e : List String) :
    indexOf n e =
      (match rankInOrder e n with
       | some i => (i : Int)
       | none => -1) := by
  induction e with
  | nil => simp [indexOf, rankInOrder]
  | cons v rest ih =>
    by_cases h : n = v
    · simp [indexOf, rankInOrder, h]
    · rcases hr : rankInOrder rest n with _ | i
      · rw [hr] at ih
        simp [indexOf, rankInOrder, h, hr, ih]
      · rw [hr] at ih
        have hi : (i : Int) ≠ -1 := by omega
        simp [indexOf, rankInOrder, h, hr, ih, hi]

theorem hasValue_iff (r : ResourceUsage) :
    resourceUsageHasValue r = true ↔ specHasValue r := by
  simp [resourceUsageHasValue, specHasValue, List.any_eq_true]

theorem ruLess_iff_specLess (e : List String) (a b : ResourceUsage) :
    ruLess e a b = true ↔ specLess e a b := by
  have ha := hasValue_iff a
  have hb := hasValue_iff b
  rcases hA : rankInOrder e a.name with _ | i
  · rcases hB : rankInOrder e b.name with _ | j
    · rcases hva : resourceUsageHasValue a <;> rcases hvb : resourceUsageHasValue b <;>
        rw [hva] at ha <;> rw [hvb] at hb <;>
          simp_all [ruLess, specLess, indexOf_eq_rank]
    · have hj : (j : Int) ≠ -1 := by omega
      simp [ruLess, specLess, indexOf_eq_rank, hA, hB, hj]
  · rcases hB : rankInOrder e b.name with _ | j
    · have hi : (i : Int) ≠ -1 := by omega
      simp [ruLess, specLess, indexOf_eq_rank, hA, hB, hi]
    · have hi : (i : Int) ≠ -1 := by omega
      have hj : (j : Int) ≠ -1 := by omega
      simp [ruLess, specLess, indexOf_eq_rank, hA, hB, hi, hj]


theorem specLess_asymm (e : List String) {a b : ResourceUsage}
    (h : specLess e a b) : ¬specLess e b a := by
  intro h2
  rcases hA : rankInOrder e a.name with _ | i <;>
    rcases hB : rankInOrder e b.name with _ | j <;>
      simp only [specLess, hA, hB] at h h2 <;>
        first
        | omega
        | exact h2
        | exact h
        | skip
  rcases h with ⟨h1a, h1b⟩ | ⟨h1, h1n⟩ <;> rcases h2 with ⟨h2a, h2b⟩ | ⟨h2, h2n⟩ <;>
    try tauto
  exact absurd h2n (not_lt.mpr (le_of_lt h1n))

theorem not_specLess_trans (e : List String) {a b c : ResourceUsage}
    (h1 : ¬specLess e b a) (h2 : ¬specLess e c b) : ¬specLess e c a := by
  intro h3
  rcases hA : rankInOrder e a.name with _ | i <;>
    rcases hB : rankInOrder e b.name with _ | j <;>
      rcases hC : rankInOrder e c.name with _ | k <;>
        simp only [specLess, hA, hB, hC] at h1 h2 h3 <;>
          first
          | omega
          | exact h1 trivial
          | exact h2 trivial
          | exact h3
          | skip
  push_neg at h1 h2
  rcases h1 with ⟨h1a, h1b⟩
  rcases h2 with ⟨h2a, h2b⟩
  rcases h3 with ⟨h3a, h3b⟩ | ⟨h3a, h3b⟩
  · exact h3b (h1a (h2a h3a))
  · have hbc : specHasValue c ↔ specHasValue b := by
      constructor
      · exact h2a
      · intro hvb
        exact h3a.mpr (h1a hvb)
    have hba : specHasValue b ↔ specHasValue a := by
      constructor
      · exact h1a
      · intro hva
        exact h2a (h3a.mpr hva)
    have hab : a.name ≤ b.name := not_lt.mp (h1b hba)
    have hbc2 : b.name ≤ c.name := not_lt.mp (h2b hbc)
    exact absurd (lt_of_lt_of_le h3b (le_trans hab hbc2)) (lt_irrefl _)

/-- C2.  The final ordering: (i) the Go comparator `ruLess` coincides with
the claim's three-clause order `specLess` (persisted order rank first, then
presence of a non-absent Value, then ascending name); (ii) `sortResourceUsages`
returns a permutation of its input that is sorted by that order; (iii) on the
claim's concrete instance (persisted order [X, Y], sync input [Y, Z, X] with
only Z carrying a non-absent Value) the output order is [X, Y, Z]. -/
theorem c2_sortResourceUsages_ordering :
    (∀ (e : List String) (a b : ResourceUsage),
      ruLess e a b = true ↔ specLess e a b) ∧
    (∀ (l : List ResourceUsage) (e : List String),
      (sortResourceUsages l e).Perm l ∧
      List.Pairwise (fun a b => ¬specLess e b a) (sortResourceUsages l e)) ∧
    (sortResourceUsages
        [ResourceUsage.mk "Y" [],
         ResourceUsage.mk "Z" [UsageItem.mk "k" .int64 "" none (some (.int 1))],
         ResourceUsage.mk "X" []]
        ["X", "Y"]).map ResourceUsage.name = ["X", "Y", "Z"] := by
  refine ⟨ruLess_iff_specLess, fun l e => ⟨?_, ?_⟩, by decide⟩
  · exact List.perm_insertionSort _ l
  · have hs : List.Pairwise (fun a b => ruLess e b a = false) (sortResourceUsages l e) := by
      haveI ht : IsTotal ResourceUsage (fun a b => ruLess e b a = false) := by
        refine ⟨fun a b => ?_⟩
        by_contra hcon
        push_neg at hcon
        rcases hcon with ⟨hab, hba⟩
        rw [Bool.ne_false_iff] at hab hba
        exact specLess_asymm e ((ruLess_iff_specLess e b a).mp hab)
          ((ruLess_iff_specLess e a b).mp hba)
      haveI htr : IsTrans ResourceUsage (fun a b => ruLess e b a = false) := by
        refine ⟨fun a b c hab hbc => ?_⟩
        rw [Bool.eq_false_iff, Ne, ruLess_iff_specLess] at hab hbc ⊢
        exact not_specLess_trans e hab hbc
      exact List.sorted_insertionSort _ l
    exact hs.imp (fun h => by
      rw [Bool.eq_false_iff, Ne, ruLess_iff_specLess] at h
      exact h)


/-! ### Structural lemmas about the merge engine -/

theorem mergeScalarInto_key (d1 : UsageItem) (sdv sv : Option UsageValue) :
    (mergeScalarInto d1 sdv sv).key = d1.key := by
  rcases sdv with _ | v1 <;> rcases sv with _ | v2 <;> simp [mergeScalarInto]

theorem mergeSubDefaultInto_key (d1 : UsageItem) (sdv : Option UsageValue)
    (opts : MergeResourceUsagesOpts) :
    (mergeSubDefaultInto d1 sdv opts).key = d1.key := by
  rcases sdv with _ | (n | q | st | xs | r) <;> simp [mergeSubDefaultInto]

theorem mergeSubValueInto_key (d2 : UsageItem) (sv : Option UsageValue)
    (opts : MergeResourceUsagesOpts) :
    (mergeSubValueInto d2 sv opts).key = d2.key := by
  rcases sv with _ | (n | q | st | xs | r) <;> simp [mergeSubValueInto]

theorem mergeSubDefaultInto_value (d1 : UsageItem) (sdv : Option UsageValue)
    (opts : MergeResourceUsagesOpts) :
    (mergeSubDefaultInto d1 sdv opts).value = d1.value := by
  rcases sdv with _ | (n | q | st | xs | r) <;> simp [mergeSubDefaultInto]

theorem mergeSubValueInto_defaultValue (d2 : UsageItem) (sv : Option UsageValue)
    (opts : MergeResourceUsagesOpts) :
    (mergeSubValueInto d2 sv opts).defaultValue = d2.defaultValue := by
  rcases sv with _ | (n | q | st | xs | r) <;> simp [mergeSubValueInto]

theorem mergeSubValueInto_none (d2 : UsageItem) (opts : MergeResourceUsagesOpts) :
    mergeSubValueInto d2 none opts = d2 := by
  simp [mergeSubValueInto]

theorem mergeItemInto_key (d s : UsageItem) (opts : MergeResourceUsagesOpts) :
    (mergeItemInto d s opts).key = d.key := by
  cases s with
  | mk sk svt sdesc sdv sv =>
    by_cases h : svt = ValueType.subResourceUsage <;>
      simp [mergeItemInto, h, mergeScalarInto_key, mergeSubValueInto_key,
        mergeSubDefaultInto_key]

theorem mergeScalarInto_value_none (d1 : UsageItem) (sdv : Option UsageValue) :
    (mergeScalarInto d1 sdv none).value = d1.value := by
  rcases sdv with _ | v1 <;> simp [mergeScalarInto]

theorem mergeItemInto_value_of_src_none (d s : UsageItem)
    (opts : MergeResourceUsagesOpts) (h : s.value = none) :
    (mergeItemInto d s opts).value = d.value := by
  cases s with
  | mk sk svt sdesc sdv sv =>
    simp only [UsageItem.value_mk] at h
    subst h
    by_cases hh : svt = ValueType.subResourceUsage <;>
      simp [mergeItemInto, hh, mergeSubValueInto_none, mergeSubDefaultInto_value,
        mergeScalarInto_value_none]

theorem lastIdxOf_lt_length {items : List UsageItem} {k : String} {i : Nat}
    (h : lastIdxOf items k = some i) : i < items.length := by
  induction items generalizing i with
  | nil => simp [lastIdxOf] at h
  | cons it rest ih =>
    rcases hr : lastIdxOf rest k with _ | m
    · simp only [lastIdxOf, hr] at h
      split at h
      · simp at h
        simp only [List.length_cons]
        omega
      · cases h
    · simp only [lastIdxOf, hr] at h
      simp at h
      have hm := ih hr
      simp only [List.length_cons]
      omega

theorem lastIdxOf_key {items : List UsageItem} {k : String} {i : Nat}
    (h : lastIdxOf items k = some i) : (items.getD i dfltItem).key = k := by
  induction items generalizing i with
  | nil => simp [lastIdxOf] at h
  | cons it rest ih =>
    rcases hr : lastIdxOf rest k with _ | m
    · simp only [lastIdxOf, hr] at h
      split at h
      · rename_i hkey
        simp at h
        subst h
        simpa using hkey
      · cases h
    · simp only [lastIdxOf, hr] at h
      simp at h
      subst h
      simpa using ih hr

theorem lastIdxOf_none_iff {items : List UsageItem} {k : String} :
    lastIdxOf items k = none ↔ k ∉ itemKeys items := by
  induction items with
  | nil => simp [lastIdxOf, itemKeys]
  | cons it rest ih =>
    rcases hr : lastIdxOf rest k with _ | m
    · have hnotin : k ∉ itemKeys rest := ih.mp hr
      by_cases hk : it.key = k
      · simp only [lastIdxOf, hr, if_pos hk, itemKeys, List.map_cons, List.mem_cons]
        constructor
        · intro hcon
          cases hcon
        · intro hcon
          exact absurd (Or.inl hk.symm) hcon
      · simp only [lastIdxOf, hr, if_neg hk, itemKeys, List.map_cons, List.mem_cons]
        constructor
        · intro _ hcon
          rcases hcon with hc | hc
          · exact hk hc.symm
          · exact hnotin hc
        · intro _
          trivial
    · have hin : k ∈ itemKeys rest := by
        by_contra hx
        rw [ih.mpr hx] at hr
        cases hr
      simp only [lastIdxOf, hr, itemKeys, List.map_cons, List.mem_cons]
      constructor
      · intro hcon
        cases hcon
      · intro hcon
        exact absurd (Or.inr hin) hcon



theorem getD_set_ne (l : List UsageItem) (i j : Nat) (x : UsageItem)
    (h : i ≠ j) : (l.set i x).getD j dfltItem = l.getD j dfltItem := by
  simp [List.getD_eq_getElem?_getD, List.getElem?_set_ne h]

theorem getD_set_self (l : List UsageItem) (j : Nat) (x : UsageItem)
    (h : j < l.length) : (l.set j x).getD j dfltItem = x := by
  simp [List.getD_eq_getElem?_getD, List.getElem?_set_eq_of_lt x h]

theorem getD_append_left (l m : List UsageItem) (j : Nat) (h : j < l.length) :
    (l ++ m).getD j dfltItem = l.getD j dfltItem := by
  simp [List.getD_eq_getElem?_getD, List.getElem?_append, h]

/-- Positions of the original destination items are only ever touched by
source items bearing the same key: if every source item aimed at position `j`
carries no Value, position `j` keeps its key and its Value through the merge
loop. -/
theorem mergeItemsGo_frame (opts : MergeResourceUsagesOpts)
    (sitems : List UsageItem) :
    ∀ (orig extra : List UsageItem) (j : Nat), j < orig.length →
      (∀ s1 ∈ sitems, s1.key = (orig.getD j dfltItem).key → s1.value = none) →
      ∃ orig2 extra2,
        mergeItemsGo orig extra sitems opts = orig2 ++ extra2 ∧
        orig2.length = orig.length ∧
        (orig2.getD j dfltItem).key = (orig.getD j dfltItem).key ∧
        (orig2.getD j dfltItem).value = (orig.getD j dfltItem).value := by
  induction sitems with
  | nil =>
    intro orig extra j hj _
    exact ⟨orig, extra, by simp [mergeItemsGo], rfl, rfl, rfl⟩
  | cons s rest ih =>
    intro orig extra j hj hcond
    rcases hidx : lastIdxOf orig s.key with _ | i
    · have hstep : mergeItemsGo orig extra (s :: rest) opts =
          mergeItemsGo orig
            (extra ++ [mergeItemInto (.mk s.key s.valueType "" none none) s opts])
            rest opts := by
        simp [mergeItemsGo, hidx]
      rw [hstep]
      exact ih orig _ j hj (fun s1 hs1 => hcond s1 (List.mem_cons_of_mem s hs1))
    · have hstep : mergeItemsGo orig extra (s :: rest) opts =
          mergeItemsGo (orig.set i (mergeItemInto (orig.getD i dfltItem) s opts))
            extra rest opts := by
        simp [mergeItemsGo, hidx]
      rw [hstep]
      set orig' := orig.set i (mergeItemInto (orig.getD i dfltItem) s opts) with horig'
      have hlen : orig'.length = orig.length := by
        simp [horig', List.length_set]
      by_cases hij : i = j
      · subst hij
        have hkey : (orig.getD i dfltItem).key = s.key := lastIdxOf_key hidx
        have hsv : s.value = none := hcond s (List.mem_cons_self s rest) hkey.symm
        have hkey2 : (orig'.getD i dfltItem).key = (orig.getD i dfltItem).key := by
          rw [horig', getD_set_self _ _ _ hj, mergeItemInto_key]
        have hval2 : (orig'.getD i dfltItem).value = (orig.getD i dfltItem).value := by
          rw [horig', getD_set_self _ _ _ hj, mergeItemInto_value_of_src_none _ _ _ hsv]
        obtain ⟨o2, e2, heq, hl, hk, hv⟩ := ih orig' extra i (hlen ▸ hj)
          (fun s1 hs1 hk1 => hcond s1 (List.mem_cons_of_mem s hs1) (hkey2 ▸ hk1))
        exact ⟨o2, e2, heq, hl.trans hlen, by rw [hk, hkey2], by rw [hv, hval2]⟩
      · have hkeep : orig'.getD j dfltItem = orig.getD j dfltItem := by
          rw [horig', getD_set_ne _ _ _ _ hij]
        obtain ⟨o2, e2, heq, hl, hk, hv⟩ := ih orig' extra j (hlen ▸ hj)
          (fun s1 hs1 hk1 => hcond s1 (List.mem_cons_of_mem s hs1) (hkeep ▸ hk1))
        exact ⟨o2, e2, heq, hl.trans hlen, by rw [hk, hkeep], by rw [hv, hkeep]⟩

/-- C5.  If the destination item at position `j` holds Value `V1` and every
source item with that key carries no Value (only, at most, a DefaultValue),
then after `mergeResourceUsages` the item at position `j` still has the same
key and still holds Value `V1`. -/
theorem c5_merge_value_precedence (dest src : ResourceUsage)
    (opts : MergeResourceUsagesOpts) (j : Nat) (V1 : UsageValue)
    (hj : j < dest.items.length)
    (hv : (dest.items.getD j dfltItem).value = some V1)
    (hsrc : ∀ s1 ∈ src.items, s1.key = (dest.items.getD j dfltItem).key →
      s1.value = none) :
    j < (mergeResourceUsages dest src opts).items.length ∧
    ((mergeResourceUsages dest src opts).items.getD j dfltItem).key =
      (dest.items.getD j dfltItem).key ∧
    ((mergeResourceUsages dest src opts).items.getD j dfltItem).value = some V1 := by
  obtain ⟨o2, e2, heq, hl, hk, hval⟩ :=
    mergeItemsGo_frame opts src.items dest.items [] j hj hsrc
  have hitems : (mergeResourceUsages dest src opts).items = o2 ++ e2 := by
    cases src with
    | mk sn sitems =>
      simp [mergeResourceUsages]
      exact heq
  have hjlt : j < o2.length := by omega
  refine ⟨?_, ?_, ?_⟩
  · rw [hitems]
    simp [List.length_append]
    omega
  · rw [hitems, getD_append_left _ _ _ hjlt, hk]
  · rw [hitems, getD_append_left _ _ _ hjlt, hval, hv]

/-- Witness for C5 at a concrete input: `dest` holds Value 1 for key "k",
`src` carries only a DefaultValue 2 for "k"; after the merge the Value is
still 1. -/
theorem c5_merge_value_precedence_witness :
    ((mergeResourceUsages
        (.mk "r" [.mk "k" .int64 "" none (some (.int 1))])
        (.mk "r" [.mk "k" .int64 "" (some (.int 2)) none])
        ⟨false⟩).items.getD 0 dfltItem).value = some (.int 1) := by
  have h := c5_merge_value_precedence
    (.mk "r" [.mk "k" .int64 "" none (some (.int 1))])
    (.mk "r" [.mk "k" .int64 "" (some (.int 2)) none])
    ⟨false⟩ 0 (.int 1) (by simp) (by simp) (by
      intro s1 hs1 hk
      simp at hs1
      subst hs1
      simp)
  exact h.2.2



theorem list_set_self {α : Type} (l : List α) (i : Nat) (h : i < l.length) :
    l.set i l[i] = l := by
  apply List.ext_getElem?
  intro n
  by_cases hn : n = i
  · subst hn
    simp [List.getElem?_set_eq_of_lt _ h, List.getElem?_eq_getElem h]
  · simp [List.getElem?_set_ne (fun hc => hn hc.symm)]

theorem itemKeys_set_merge (orig : List UsageItem) (i : Nat) (s : UsageItem)
    (opts : MergeResourceUsagesOpts) (h : i < orig.length) :
    itemKeys (orig.set i (mergeItemInto (orig.getD i dfltItem) s opts)) =
      itemKeys orig := by
  unfold itemKeys
  rw [List.map_set, mergeItemInto_key]
  have hlen : i < (orig.map (fun it => it.key)).length := by simpa using h
  have hkk : (orig.getD i dfltItem).key =
      (orig.map (fun it => it.key))[i] := by
    simp [List.getD_eq_getElem?_getD, List.getElem?_eq_getElem h]
  rw [hkk, list_set_self]

theorem getD_key_mem (orig : List UsageItem) (i : Nat) (h : i < orig.length) :
    (orig.getD i dfltItem).key ∈ itemKeys orig := by
  have : orig.getD i dfltItem = orig[i] := by
    simp [List.getD_eq_getElem?_getD, List.getElem?_eq_getElem h]
  rw [this]
  exact List.mem_map_of_mem _ (List.getElem_mem h)

/-- Every key of the source items ends up among the keys of the merged item
list (existing keys are also kept). -/
theorem mergeItemsGo_keys_mem (opts : MergeResourceUsagesOpts)
    (sitems : List UsageItem) :
    ∀ (orig extra : List UsageItem) (k : String),
      (k ∈ itemKeys orig ∨ k ∈ itemKeys extra ∨ k ∈ itemKeys sitems) →
      k ∈ itemKeys (mergeItemsGo orig extra sitems opts) := by
  induction sitems with
  | nil =>
    intro orig extra k hk
    have hstep : mergeItemsGo orig extra [] opts = orig ++ extra := by
      simp [mergeItemsGo]
    rw [hstep]
    unfold itemKeys at *
    rw [List.map_append]
    rcases hk with h | h | h
    · exact List.mem_append_left _ h
    · exact List.mem_append_right _ h
    · simp at h
  | cons s rest ih =>
    intro orig extra k hk
    rcases hidx : lastIdxOf orig s.key with _ | i
    · have hstep : mergeItemsGo orig extra (s :: rest) opts =
          mergeItemsGo orig
            (extra ++ [mergeItemInto (.mk s.key s.valueType "" none none) s opts])
            rest opts := by
        simp [mergeItemsGo, hidx]
      rw [hstep]
      apply ih
      rcases hk with h | h | h
      · exact Or.inl h
      · refine Or.inr (Or.inl ?_)
        unfold itemKeys at *
        rw [List.map_append]
        exact List.mem_append_left _ h
      · unfold itemKeys at h
        rw [List.map_cons] at h
        rcases List.mem_cons.mp h with h | h
        · refine Or.inr (Or.inl ?_)
          unfold itemKeys
          rw [List.map_append]
          refine List.mem_append_right _ ?_
          simp [mergeItemInto_key, h]
        · exact Or.inr (Or.inr h)
    · have hlt : i < orig.length := lastIdxOf_lt_length hidx
      have hstep : mergeItemsGo orig extra (s :: rest) opts =
          mergeItemsGo (orig.set i (mergeItemInto (orig.getD i dfltItem) s opts))
            extra rest opts := by
        simp [mergeItemsGo, hidx]
      rw [hstep]
      apply ih
      rw [itemKeys_set_merge orig i s opts hlt]
      rcases hk with h | h | h
      · exact Or.inl h
      · exact Or.inr (Or.inl h)
      · unfold itemKeys at h
        rw [List.map_cons] at h
        rcases List.mem_cons.mp h with h | h
        · refine Or.inl ?_
          rw [h, ← lastIdxOf_key hidx]
          exact getD_key_mem orig i hlt
        · exact Or.inr (Or.inr h)

/-- Every key of the source tree is a key of the merged tree. -/
theorem mergeResourceUsages_keys_mem (dest src : ResourceUsage)
    (opts : MergeResourceUsagesOpts) (k : String)
    (hk : k ∈ itemKeys src.items) :
    k ∈ itemKeys (mergeResourceUsages dest src opts).items := by
  cases src with
  | mk sn sitems =>
    simp only [mergeResourceUsages, ResourceUsage.items_mk]
    exact mergeItemsGo_keys_mem opts sitems dest.items [] k (Or.inr (Or.inr hk))



/-! ### C3: sub-resource seeding -/

/-- Counterexample to C3 as stated.  Claim C3's trigger is "src has a
DefaultValue and dest has no prior Value"; but the seeding
`destItem.Value = destItem.DefaultValue` (sync.go line 143-145) runs only in
the `srcItem.Value != nil` branch.  At this concrete input, `src`'s item has
a DefaultValue (with a sub-item) and no Value, `dest`'s item has a
DefaultValue and no prior Value, and after `mergeResourceUsages` the
destination Value is still absent — nothing was populated. -/
theorem c3_counterexample :
    ((mergeResourceUsages
        (.mk "r" [.mk "k" .subResourceUsage "" (some (.sub (.mk "d0" []))) none])
        (.mk "r" [.mk "k" .subResourceUsage ""
          (some (.sub (.mk "sd" [.mk "x" .int64 "" none (some (.int 5))]))) none])
        ⟨false⟩).items.getD 0 dfltItem).value = none := by
  simp [mergeResourceUsages, mergeItemsGo, mergeItemInto, mergeSubDefaultInto,
    mergeSubValueInto, lastIdxOf, destDVFor, castRU, List.getD]

/-- C3 (amended: the populating step is triggered by a present `src` Value —
here together with a present `src` DefaultValue and a present `dest`
DefaultValue — not by the `src` DefaultValue alone).  When `dest`'s item has
no prior Value, its DefaultValue sub-tree `D` is first updated by the
DefaultValue merge with `SD`, `dest.Value` is then populated from that
updated DefaultValue tree before recursing into the Value merge with `SV`,
and every sub-item key added by that recursion is present in the final
Value sub-tree. -/
theorem c3_sub_resource_seeding (d s : UsageItem) (opts : MergeResourceUsagesOpts)
    (D SD SV : ResourceUsage)
    (hdV : d.value = none) (hdD : d.defaultValue = some (.sub D))
    (hsvt : s.valueType = ValueType.subResourceUsage)
    (hsD : s.defaultValue = some (.sub SD)) (hsV : s.value = some (.sub SV)) :
    (mergeItemInto d s opts).defaultValue =
      some (.sub (mergeResourceUsages D SD opts)) ∧
    (mergeItemInto d s opts).value =
      some (.sub (mergeResourceUsages (mergeResourceUsages D SD opts) SV opts)) ∧
    (∀ k, k ∈ itemKeys SV.items →
      k ∈ itemKeys (mergeResourceUsages (mergeResourceUsages D SD opts) SV opts).items) := by
  cases s with
  | mk sk svt sdesc sdv sv =>
    simp only [UsageItem.valueType_mk, UsageItem.defaultValue_mk, UsageItem.value_mk]
      at hsvt hsD hsV
    subst hsvt hsD hsV
    have hstep : mergeItemInto d (.mk sk ValueType.subResourceUsage sdesc
        (some (.sub SD)) (some (.sub SV))) opts =
        mergeSubValueInto (mergeSubDefaultInto
          (.mk d.key (if opts.overrideValueType then ValueType.subResourceUsage
              else d.valueType)
            (if sdesc ≠ "" then sdesc else d.description) d.defaultValue d.value)
          (some (.sub SD)) opts) (some (.sub SV)) opts := by
      simp [mergeItemInto]
    rw [hstep]
    rw [show mergeSubDefaultInto (.mk d.key (if opts.overrideValueType then
        ValueType.subResourceUsage else d.valueType)
        (if sdesc ≠ "" then sdesc else d.description) d.defaultValue d.value)
        (some (.sub SD)) opts =
        .mk d.key (if opts.overrideValueType then ValueType.subResourceUsage
            else d.valueType)
          (if sdesc ≠ "" then sdesc else d.description)
          (some (.sub (mergeResourceUsages D SD opts))) d.value from by
      simp [mergeSubDefaultInto, destDVFor, hdD, castRU]]
    rw [show mergeSubValueInto (.mk d.key (if opts.overrideValueType then
        ValueType.subResourceUsage else d.valueType)
        (if sdesc ≠ "" then sdesc else d.description)
        (some (.sub (mergeResourceUsages D SD opts))) d.value)
        (some (.sub SV)) opts =
        .mk d.key (if opts.overrideValueType then ValueType.subResourceUsage
            else d.valueType)
          (if sdesc ≠ "" then sdesc else d.description)
          (some (.sub (mergeResourceUsages D SD opts)))
          (some (.sub (mergeResourceUsages (mergeResourceUsages D SD opts) SV opts)))
        from by
      simp [mergeSubValueInto, destVFor, hdV, castRU]]
    refine ⟨by simp, by simp, ?_⟩
    intro k hk
    exact mergeResourceUsages_keys_mem _ _ _ _ hk

/-- Witness for the amended C3 at a concrete input: dest has DefaultValue
tree D with no Value; src carries DefaultValue SD and Value SV = {v: 7};
after the merge the item Value is the merge of SV into the updated
DefaultValue, and SV's key "v" is present in it. -/
theorem c3_sub_resource_seeding_witness :
    (mergeItemInto
        (.mk "k" .subResourceUsage "" (some (.sub (.mk "D" []))) none)
        (.mk "k" .subResourceUsage ""
          (some (.sub (.mk "SD" [.mk "w" .int64 "" (some (.int 1)) none])))
          (some (.sub (.mk "SV" [.mk "v" .int64 "" none (some (.int 7))]))))
        ⟨false⟩).value =
      some (.sub (mergeResourceUsages
        (mergeResourceUsages (.mk "D" []) (.mk "SD" [.mk "w" .int64 "" (some (.int 1)) none]) ⟨false⟩)
        (.mk "SV" [.mk "v" .int64 "" none (some (.int 7))]) ⟨false⟩)) ∧
    "v" ∈ itemKeys (mergeResourceUsages
        (mergeResourceUsages (.mk "D" []) (.mk "SD" [.mk "w" .int64 "" (some (.int 1)) none]) ⟨false⟩)
        (.mk "SV" [.mk "v" .int64 "" none (some (.int 7))]) ⟨false⟩).items := by
  have h := c3_sub_resource_seeding
    (.mk "k" .subResourceUsage "" (some (.sub (.mk "D" []))) none)
    (.mk "k" .subResourceUsage ""
      (some (.sub (.mk "SD" [.mk "w" .int64 "" (some (.int 1)) none])))
      (some (.sub (.mk "SV" [.mk "v" .int64 "" none (some (.int 7))]))))
    ⟨false⟩
    (.mk "D" []) (.mk "SD" [.mk "w" .int64 "" (some (.int 1)) none])
    (.mk "SV" [.mk "v" .int64 "" none (some (.int 7))])
    rfl rfl rfl rfl rfl
  exact ⟨h.2.1, h.2.2 "v" (by simp [itemKeys])⟩



/-! ### C7: the merge-back only touches items with non-null data -/

theorem mergeItemsWithUsageData_eq_map (items : List UsageItem) (u : UsageData) :
    mergeItemsWithUsageData items u =
      items.map (fun it => mergeItemWithUsageData it u) := by
  induction items with
  | nil => simp [mergeItemsWithUsageData]
  | cons it rest ih => simp [mergeItemsWithUsageData, ih]

theorem mergeSubItemWithUsageData_frame (k desc : String)
    (dv v : Option UsageValue) (u : UsageData) :
    (mergeSubItemWithUsageData k desc dv v u).key = k ∧
    (mergeSubItemWithUsageData k desc dv v u).valueType = .subResourceUsage ∧
    (mergeSubItemWithUsageData k desc dv v u).description = desc ∧
    (mergeSubItemWithUsageData k desc dv v u).defaultValue = dv := by
  rcases v with _ | (n | q | st | xs | base)
  · rcases dv with _ | (n | q | st | xs | dtree)
    · simp [mergeSubItemWithUsageData]
    · simp [mergeSubItemWithUsageData]
    · simp [mergeSubItemWithUsageData]
    · simp [mergeSubItemWithUsageData]
    · simp [mergeSubItemWithUsageData]
    · cases dtree with
      | mk dn ditems =>
        simp only [mergeSubItemWithUsageData]
        split <;> simp
  · simp [mergeSubItemWithUsageData]
  · simp [mergeSubItemWithUsageData]
  · simp [mergeSubItemWithUsageData]
  · simp [mergeSubItemWithUsageData]
  · simp [mergeSubItemWithUsageData]

theorem mergeItemWithUsageData_frame (it : UsageItem) (u : UsageData) :
    (mergeItemWithUsageData it u).key = it.key ∧
    (mergeItemWithUsageData it u).valueType = it.valueType ∧
    (mergeItemWithUsageData it u).description = it.description ∧
    (mergeItemWithUsageData it u).defaultValue = it.defaultValue := by
  cases it with
  | mk k vt desc dv v =>
    cases vt
    · rcases hg : u.getInt k with _ | n <;> simp [mergeItemWithUsageData, hg]
    · rcases hg : u.getFloat k with _ | q <;> simp [mergeItemWithUsageData, hg]
    · rcases hg : u.getString k with _ | st <;> simp [mergeItemWithUsageData, hg]
    · rcases hg : u.getStringArray k with _ | xs <;> simp [mergeItemWithUsageData, hg]
    · have h := mergeSubItemWithUsageData_frame k desc dv v u
      simp only [mergeItemWithUsageData]
      simp_all

theorem mergeItemWithUsageData_null_scalar (it : UsageItem) (u : UsageData)
    (hvt : it.valueType = .int64 ∨ it.valueType = .float64 ∨
      it.valueType = .string ∨ it.valueType = .stringArray)
    (hnull : u.get it.key = .null) :
    mergeItemWithUsageData it u = it := by
  cases it with
  | mk k vt desc dv v =>
    simp only [UsageItem.valueType_mk, UsageItem.key_mk] at hvt hnull
    rcases hvt with h | h | h | h <;> subst h <;>
      simp [mergeItemWithUsageData, UsageData.getInt, UsageData.getFloat,
        UsageData.getString, UsageData.getStringArray, hnull]

theorem getD_map_merge (items : List UsageItem) (u : UsageData) (j : Nat)
    (h : j < items.length) :
    ((items.map (fun it => mergeItemWithUsageData it u)).getD j dfltItem) =
      mergeItemWithUsageData (items.getD j dfltItem) u := by
  simp [List.getD_eq_getElem?_getD, List.getElem?_eq_getElem, h,
    List.getElem?_map]

/-- C7.  The merge-back reassigns only items whose key has non-null data: the
tree name, the item count, and every item's key, declared type, description
and DefaultValue are always unchanged, and a scalar/array item (`Int64`,
`Float64`, `String`, `StringArray`) whose key is absent or null in the
estimation output is left entirely unchanged, retaining its prior Value. -/
theorem c7_merge_back_null_frame (r : ResourceUsage) (u : UsageData) (j : Nat)
    (hj : j < r.items.length) :
    (mergeResourceUsageWithUsageData r u).name = r.name ∧
    (mergeResourceUsageWithUsageData r u).items.length = r.items.length ∧
    ((mergeResourceUsageWithUsageData r u).items.getD j dfltItem).key =
      (r.items.getD j dfltItem).key ∧
    ((mergeResourceUsageWithUsageData r u).items.getD j dfltItem).valueType =
      (r.items.getD j dfltItem).valueType ∧
    ((mergeResourceUsageWithUsageData r u).items.getD j dfltItem).description =
      (r.items.getD j dfltItem).description ∧
    ((mergeResourceUsageWithUsageData r u).items.getD j dfltItem).defaultValue =
      (r.items.getD j dfltItem).defaultValue ∧
    (((r.items.getD j dfltItem).valueType = .int64 ∨
      (r.items.getD j dfltItem).valueType = .float64 ∨
      (r.items.getD j dfltItem).valueType = .string ∨
      (r.items.getD j dfltItem).valueType = .stringArray) →
      u.get (r.items.getD j dfltItem).key = .null →
      (mergeResourceUsageWithUsageData r u).items.getD j dfltItem =
        r.items.getD j dfltItem) := by
  cases r with
  | mk n its =>
    simp only [ResourceUsage.items_mk] at hj ⊢
    have hitems : (mergeResourceUsageWithUsageData (.mk n its) u).items =
        its.map (fun it => mergeItemWithUsageData it u) := by
      simp [mergeResourceUsageWithUsageData, mergeItemsWithUsageData_eq_map]
    have hname : (mergeResourceUsageWithUsageData (.mk n its) u).name = n := by
      simp [mergeResourceUsageWithUsageData]
    rw [hitems, hname, getD_map_merge its u j hj]
    have hf := mergeItemWithUsageData_frame (its.getD j dfltItem) u
    refine ⟨by simp, by simp, hf.1, hf.2.1, hf.2.2.1, hf.2.2.2, ?_⟩
    intro hvt hnull
    exact mergeItemWithUsageData_null_scalar _ u hvt hnull

/-- Witness for C7 at a concrete input: an `Int64` item whose key has no data
in the estimation output keeps its entire prior state. -/
theorem c7_merge_back_null_frame_witness :
    (mergeResourceUsageWithUsageData
        (.mk "r" [.mk "k" .int64 "d" (some (.int 3)) (some (.int 9))])
        ⟨"r", [("other", .int 5)]⟩).items.getD 0 dfltItem =
      .mk "k" .int64 "d" (some (.int 3)) (some (.int 9)) := by
  have h := c7_merge_back_null_frame
    (.mk "r" [.mk "k" .int64 "d" (some (.int 3)) (some (.int 9))])
    ⟨"r", [("other", .int 5)]⟩ 0 (by simp)
  exact h.2.2.2.2.2.2 (by simp) (by simp [UsageData.get, attrGet])



/-! ### C4: null-dropping materialization of sub-resource defaults -/

theorem itemKeys_mergeItemsWithUsageData (items : List UsageItem) (u : UsageData) :
    itemKeys (mergeItemsWithUsageData items u) = itemKeys items := by
  rw [mergeItemsWithUsageData_eq_map]
  unfold itemKeys
  rw [List.map_map]
  apply List.map_congr_left
  intro it _
  exact (mergeItemWithUsageData_frame it u).1

/-- C4.  For a `SubResourceUsage` item with absent Value and DefaultValue tree
`D`: if no default sub-item has non-null data in the estimation output, the
item is left entirely unchanged (its Value stays absent, no empty sub-tree is
created); if at least one qualifies, the item Value becomes a sub-tree named
after the item key whose item keys are exactly the keys of the default
sub-items with non-null data (in order). -/
theorem c4_merge_back_null_drop (r : ResourceUsage) (u : UsageData) (j : Nat)
    (D : ResourceUsage)
    (hj : j < r.items.length)
    (hvt : (r.items.getD j dfltItem).valueType = .subResourceUsage)
    (hv : (r.items.getD j dfltItem).value = none)
    (hdv : (r.items.getD j dfltItem).defaultValue = some (.sub D)) :
    (D.items.filter (fun si =>
        !(((⟨(r.items.getD j dfltItem).key,
            (u.get (r.items.getD j dfltItem).key).mapEntries⟩ : UsageData).get
          si.key).isNull)) = [] →
      (mergeResourceUsageWithUsageData r u).items.getD j dfltItem =
        r.items.getD j dfltItem) ∧
    (D.items.filter (fun si =>
        !(((⟨(r.items.getD j dfltItem).key,
            (u.get (r.items.getD j dfltItem).key).mapEntries⟩ : UsageData).get
          si.key).isNull)) ≠ [] →
      ∃ T : ResourceUsage,
        ((mergeResourceUsageWithUsageData r u).items.getD j dfltItem).value =
          some (.sub T) ∧
        T.name = (r.items.getD j dfltItem).key ∧
        itemKeys T.items = itemKeys (D.items.filter (fun si =>
          !(((⟨(r.items.getD j dfltItem).key,
              (u.get (r.items.getD j dfltItem).key).mapEntries⟩ : UsageData).get
            si.key).isNull)))) := by
  cases r with
  | mk n its =>
    simp only [ResourceUsage.items_mk] at hj hvt hv hdv ⊢
    have hitems : (mergeResourceUsageWithUsageData (.mk n its) u).items =
        its.map (fun it => mergeItemWithUsageData it u) := by
      simp [mergeResourceUsageWithUsageData, mergeItemsWithUsageData_eq_map]
    rw [hitems, getD_map_merge its u j hj]
    rcases hit : its.getD j dfltItem with ⟨k, vt, desc, dv, v⟩
    rw [hit] at hvt hv hdv
    simp only [UsageItem.valueType_mk, UsageItem.value_mk,
      UsageItem.defaultValue_mk, UsageItem.key_mk] at hvt hv hdv ⊢
    subst hvt hv hdv
    cases D with
    | mk dn ditems =>
      simp only [ResourceUsage.items_mk]
      constructor
      · intro hempty
        simp [mergeItemWithUsageData, mergeSubItemWithUsageData, hempty]
      · intro hne
        refine ⟨.mk k (mergeItemsWithUsageData (ditems.filter (fun si =>
          !(((⟨k, (u.get k).mapEntries⟩ : UsageData).get si.key).isNull))) 
          ⟨k, (u.get k).mapEntries⟩), ?_, ?_, ?_⟩
        · simp only [mergeItemWithUsageData, mergeSubItemWithUsageData]
          rw [if_neg (by simpa [List.isEmpty_iff] using hne)]
          simp
        · simp
        · simp [itemKeys_mergeItemsWithUsageData]

/-- Witness for C4 at the claim's concrete instance: a default sub-tree with
sub-items {a, b} and estimation output carrying non-null data only for "a"
materializes a sub-tree holding exactly "a"; with output null for both, the
item (and its absent Value) is unchanged. -/
theorem c4_merge_back_null_drop_witness :
    (∃ T : ResourceUsage,
      ((mergeResourceUsageWithUsageData
          (.mk "r" [.mk "k" .subResourceUsage ""
            (some (.sub (.mk "d" [.mk "a" .int64 "" (some (.int 1)) none,
                                  .mk "b" .int64 "" (some (.int 2)) none]))) none])
          ⟨"r", [("k", .map [("a", .int 7)])]⟩).items.getD 0 dfltItem).value =
        some (.sub T) ∧
      T.name = "k" ∧ itemKeys T.items = ["a"]) ∧
    ((mergeResourceUsageWithUsageData
        (.mk "r" [.mk "k" .subResourceUsage ""
          (some (.sub (.mk "d" [.mk "a" .int64 "" (some (.int 1)) none,
                                .mk "b" .int64 "" (some (.int 2)) none]))) none])
        ⟨"r", []⟩).items.getD 0 dfltItem).value = none := by
  constructor
  · obtain ⟨T, hT1, hT2, hT3⟩ := (c4_merge_back_null_drop
      (.mk "r" [.mk "k" .subResourceUsage ""
        (some (.sub (.mk "d" [.mk "a" .int64 "" (some (.int 1)) none,
                              .mk "b" .int64 "" (some (.int 2)) none]))) none])
      ⟨"r", [("k", .map [("a", .int 7)])]⟩ 0
      (.mk "d" [.mk "a" .int64 "" (some (.int 1)) none,
                .mk "b" .int64 "" (some (.int 2)) none])
      (by simp) (by simp) (by simp) (by simp)).2 (by
        simp [UsageData.get, attrGet, AttrVal.mapEntries, AttrVal.isNull,
          List.filter, List.getD])
    refine ⟨T, hT1, ?_, ?_⟩
    · rw [hT2]
      simp [List.getD]
    · rw [hT3]
      simp [UsageData.get, attrGet, AttrVal.mapEntries, AttrVal.isNull,
        List.filter, List.getD, itemKeys]
  · have h := (c4_merge_back_null_drop
      (.mk "r" [.mk "k" .subResourceUsage ""
        (some (.sub (.mk "d" [.mk "a" .int64 "" (some (.int 1)) none,
                              .mk "b" .int64 "" (some (.int 2)) none]))) none])
      ⟨"r", []⟩ 0
      (.mk "d" [.mk "a" .int64 "" (some (.int 1)) none,
                .mk "b" .int64 "" (some (.int 2)) none])
      (by simp) (by simp) (by simp) (by simp)).1 (by
        simp [UsageData.get, attrGet, AttrVal.mapEntries, AttrVal.isNull,
          List.filter, List.getD])
    rw [h]
    simp [List.getD]



/-! ### C6: idempotence of the merge -/

theorem uniqKeysItems_mem {its : List UsageItem} {it : UsageItem}
    (h : uniqKeysItems its = true) (hm : it ∈ its) : uniqKeysItem it = true := by
  induction its with
  | nil => cases hm
  | cons a rest ih =>
    rw [show uniqKeysItems (a :: rest) = (uniqKeysItem a && uniqKeysItems rest)
      from by simp [uniqKeysItems]] at h
    rcases List.mem_cons.mp hm with hm | hm
    · subst hm
      exact (Bool.and_eq_true ..).mp h |>.1
    · exact ih ((Bool.and_eq_true ..).mp h |>.2) hm

theorem lastIdxOf_eq_of_nodup {its : List UsageItem}
    (hnd : (itemKeys its).Nodup) :
    ∀ j, j < its.length → lastIdxOf its (its.getD j dfltItem).key = some j := by
  induction its with
  | nil => intro j hj; simp at hj
  | cons a rest ih =>
    intro j hj
    rw [show itemKeys (a :: rest) = a.key :: itemKeys rest from by
      simp [itemKeys]] at hnd
    have hnd2 := List.nodup_cons.mp hnd
    cases j with
    | zero =>
      have hnone : lastIdxOf rest a.key = none :=
        lastIdxOf_none_iff.mpr hnd2.1
      simp [lastIdxOf, List.getD, hnone]
    | succ m =>
      have hm : m < rest.length := by
        simpa [List.length_cons] using hj
      have hrec := ih hnd2.2 m hm
      rw [List.getD_cons_succ]
      simp only [lastIdxOf]
      rw [hrec]

theorem mem_of_lastIdx {its : List UsageItem} {s1 : UsageItem} (hm : s1 ∈ its) :
    ∃ j, j < its.length ∧ its.getD j dfltItem = s1 := by
  obtain ⟨j, hj, he⟩ := List.mem_iff_getElem.mp hm
  exact ⟨j, hj, by simp [List.getD, List.getElem?_eq_getElem hj, he]⟩

/-- If each source item is also the destination item its key selects and
self-merging each item is the identity, the whole loop is the identity. -/
theorem mergeItemsGo_self_general (opts : MergeResourceUsagesOpts)
    (rest : List UsageItem) :
    ∀ (orig : List UsageItem),
      (∀ s1 ∈ rest, ∃ i, lastIdxOf orig s1.key = some i ∧
        orig.getD i dfltItem = s1 ∧ mergeItemInto s1 s1 opts = s1) →
      mergeItemsGo orig [] rest opts = orig := by
  induction rest with
  | nil =>
    intro orig _
    simp [mergeItemsGo]
  | cons s rest2 ih =>
    intro orig hyp
    obtain ⟨i, hidx, heq, hself⟩ := hyp s (List.mem_cons_self s rest2)
    have hlt : i < orig.length := lastIdxOf_lt_length hidx
    have hstep : mergeItemsGo orig [] (s :: rest2) opts =
        mergeItemsGo (orig.set i (mergeItemInto (orig.getD i dfltItem) s opts))
          [] rest2 opts := by
      simp [mergeItemsGo, hidx]
    have hsame : orig.set i (mergeItemInto (orig.getD i dfltItem) s opts) = orig := by
      rw [heq, hself]
      rw [show s = orig[i] from by
        rw [← heq]; simp [List.getD, List.getElem?_eq_getElem hlt]]
      exact list_set_self orig i hlt
    rw [hstep, hsame]
    exact ih orig (fun s1 hs1 => hyp s1 (List.mem_cons_of_mem s hs1))

mutual

/-- C6.  Merging a tree into an identical copy of itself — with either
setting of `overrideValueType` — returns the tree unchanged (the ValueType
replacement and description copy are no-ops on equal items), provided the
tree satisfies the documented invariant that item keys are unique per
`ResourceUsage` at every nesting level. -/
theorem c6_merge_idempotent (T : ResourceUsage) (opts : MergeResourceUsagesOpts)
    (h : uniqKeysRU T = true) : mergeResourceUsages T T opts = T := by
  cases T with
  | mk n its =>
    rw [show uniqKeysRU (.mk n its) =
        (decide (itemKeys its).Nodup && uniqKeysItems its) from by
      simp [uniqKeysRU]] at h
    have hnd : (itemKeys its).Nodup :=
      of_decide_eq_true ((Bool.and_eq_true ..).mp h).1
    have hits : uniqKeysItems its = true := ((Bool.and_eq_true ..).mp h).2
    have hgo : mergeItemsGo its [] its opts = its := by
      apply mergeItemsGo_self_general
      intro s1 hs1
      obtain ⟨j, hj, hgetD⟩ := mem_of_lastIdx hs1
      refine ⟨j, ?_, hgetD, ?_⟩
      · rw [← hgetD] at hs1 ⊢
        exact lastIdxOf_eq_of_nodup hnd j hj
      · exact c6_item_idempotent s1 opts (uniqKeysItems_mem hits hs1)
    simp [mergeResourceUsages, hgo]
termination_by sizeOf T
decreasing_by
  all_goals simp_wf
  all_goals subst_vars
  all_goals
    have h1 := List.sizeOf_lt_of_mem hs1
    simp only [ResourceUsage.mk.sizeOf_spec]
    omega

/-- Self-merge of a single item is the identity, given recursively unique
keys in its payload trees. -/
theorem c6_item_idempotent (it : UsageItem) (opts : MergeResourceUsagesOpts)
    (h : uniqKeysItem it = true) : mergeItemInto it it opts = it := by
  cases it with
  | mk k vt desc dv v =>
    rw [show uniqKeysItem (.mk k vt desc dv v) =
        (uniqKeysOptVal dv && uniqKeysOptVal v) from by simp [uniqKeysItem]] at h
    have hdv := ((Bool.and_eq_true ..).mp h).1
    have hv := ((Bool.and_eq_true ..).mp h).2
    have hdvrec : ∀ D : ResourceUsage, dv = some (.sub D) →
        mergeResourceUsages D D opts = D := by
      intro D hD
      apply c6_merge_idempotent
      rw [hD] at hdv
      simpa [uniqKeysOptVal] using hdv
    have hvrec : ∀ V : ResourceUsage, v = some (.sub V) →
        mergeResourceUsages V V opts = V := by
      intro V hV
      apply c6_merge_idempotent
      rw [hV] at hv
      simpa [uniqKeysOptVal] using hv
    have hd1 : (UsageItem.mk k (if opts.overrideValueType then vt else vt)
        (if desc ≠ "" then desc else desc) dv v) = .mk k vt desc dv v := by
      simp [ite_self]
    by_cases hvt : vt = ValueType.subResourceUsage
    · have hstep : mergeItemInto (.mk k vt desc dv v) (.mk k vt desc dv v) opts =
          mergeSubValueInto (mergeSubDefaultInto (.mk k vt desc dv v) dv opts)
            v opts := by
        simp [mergeItemInto, hvt, hd1]
      rw [hstep]
      have hdef : mergeSubDefaultInto (.mk k vt desc dv v) dv opts =
          .mk k vt desc dv v := by
        rcases hdveq : dv with _ | (n | q | st | xs | D)
        · simp [mergeSubDefaultInto]
        · simp [mergeSubDefaultInto]
        · simp [mergeSubDefaultInto]
        · simp [mergeSubDefaultInto]
        · simp [mergeSubDefaultInto]
        · have hrec := hdvrec D hdveq
          simp [mergeSubDefaultInto, destDVFor, castRU, hrec]
      rw [hdef]
      rcases hveq : v with _ | (n | q | st | xs | V)
      · simp [mergeSubValueInto]
      · simp [mergeSubValueInto]
      · simp [mergeSubValueInto]
      · simp [mergeSubValueInto]
      · simp [mergeSubValueInto]
      · have hrec := hvrec V hveq
        simp [mergeSubValueInto, destVFor, castRU, hrec]
    · have hstep : mergeItemInto (.mk k vt desc dv v) (.mk k vt desc dv v) opts =
          mergeScalarInto (.mk k vt desc dv v) dv v := by
        simp [mergeItemInto, hvt, hd1]
      rw [hstep]
      rcases dv with _ | dvv <;> rcases v with _ | vv <;> simp [mergeScalarInto]
termination_by sizeOf it
decreasing_by
  all_goals simp_wf
  all_goals subst_vars
  all_goals simp only [UsageItem.mk.sizeOf_spec, Option.some.sizeOf_spec,
    UsageValue.sub.sizeOf_spec]
  all_goals omega

end

/-- Witness for C6 at a concrete input: a two-item tree with a nested
sub-resource default self-merges to itself under both override settings. -/
theorem c6_merge_idempotent_witness :
    mergeResourceUsages
        (.mk "r" [.mk "a" .int64 "d" (some (.int 1)) (some (.int 2)),
          .mk "b" .subResourceUsage ""
            (some (.sub (.mk "n" [.mk "c" .string "" none (some (.str "x"))])))
            none])
        (.mk "r" [.mk "a" .int64 "d" (some (.int 1)) (some (.int 2)),
          .mk "b" .subResourceUsage ""
            (some (.sub (.mk "n" [.mk "c" .string "" none (some (.str "x"))])))
            none])
        ⟨true⟩ =
      .mk "r" [.mk "a" .int64 "d" (some (.int 1)) (some (.int 2)),
        .mk "b" .subResourceUsage ""
          (some (.sub (.mk "n" [.mk "c" .string "" none (some (.str "x"))])))
          none] := by
  apply c6_merge_idempotent
  simp [uniqKeysRU, uniqKeysItems, uniqKeysItem, uniqKeysOptVal, itemKeys]



/-! ### C8: the merge preserves key uniqueness -/

theorem uniqKeysRU_mk (n : String) (its : List UsageItem) :
    uniqKeysRU (.mk n its) = (decide (itemKeys its).Nodup && uniqKeysItems its) := by
  simp [uniqKeysRU]

theorem uniqKeysItems_cons (a : UsageItem) (l : List UsageItem) :
    uniqKeysItems (a :: l) = (uniqKeysItem a && uniqKeysItems l) := by
  simp [uniqKeysItems]

theorem uniqKeysItems_nil : uniqKeysItems [] = true := by
  simp [uniqKeysItems]

theorem uniqKeysItem_mk (k : String) (vt : ValueType) (ds : String)
    (dv v : Option UsageValue) :
    uniqKeysItem (.mk k vt ds dv v) = (uniqKeysOptVal dv && uniqKeysOptVal v) := by
  simp [uniqKeysItem]

theorem itemKeys_append (a b : List UsageItem) :
    itemKeys (a ++ b) = itemKeys a ++ itemKeys b := by
  simp [itemKeys]

theorem uniqKeysItems_append (a b : List UsageItem) :
    uniqKeysItems (a ++ b) = (uniqKeysItems a && uniqKeysItems b) := by
  induction a with
  | nil => simp [uniqKeysItems_nil]
  | cons x rest ih => simp [uniqKeysItems_cons, ih, Bool.and_assoc]

theorem uniqKeysItems_set {l : List UsageItem} {x : UsageItem} (i : Nat)
    (hl : uniqKeysItems l = true) (hx : uniqKeysItem x = true) :
    uniqKeysItems (l.set i x) = true := by
  induction l generalizing i with
  | nil => simpa [List.set] using hl
  | cons a rest ih =>
    rw [uniqKeysItems_cons] at hl
    have h1 := ((Bool.and_eq_true ..).mp hl).1
    have h2 := ((Bool.and_eq_true ..).mp hl).2
    cases i with
    | zero => simp [List.set, uniqKeysItems_cons, hx, h2]
    | succ m => simp [List.set, uniqKeysItems_cons, h1, ih m h2]

theorem uniq_castRU {ov : Option UsageValue} (h : uniqKeysOptVal ov = true)
    {x : UsageValue} (hx : ov = some x) : uniqKeysRU (castRU x) = true := by
  subst hx
  cases x with
  | sub r => simpa [uniqKeysOptVal, castRU] using h
  | int n => simp [castRU, uniqKeysRU_mk, uniqKeysItems_nil, itemKeys]
  | float q => simp [castRU, uniqKeysRU_mk, uniqKeysItems_nil, itemKeys]
  | str st => simp [castRU, uniqKeysRU_mk, uniqKeysItems_nil, itemKeys]
  | strArray xs => simp [castRU, uniqKeysRU_mk, uniqKeysItems_nil, itemKeys]

theorem uniqKeysRU_empty (n : String) : uniqKeysRU (.mk n []) = true := by
  simp [uniqKeysRU_mk, uniqKeysItems_nil, itemKeys]

theorem uniqKeysItem_fresh (k : String) (vt : ValueType) :
    uniqKeysItem (.mk k vt "" none none) = true := by
  simp [uniqKeysItem_mk, uniqKeysOptVal]

theorem uniqKeysItems_getD {l : List UsageItem} (i : Nat) (hi : i < l.length)
    (hl : uniqKeysItems l = true) : uniqKeysItem (l.getD i dfltItem) = true := by
  have hmem : l.getD i dfltItem ∈ l := by
    have : l.getD i dfltItem = l[i] := by
      simp [List.getD, List.getElem?_eq_getElem hi]
    rw [this]
    exact List.getElem_mem hi
  exact uniqKeysItems_mem hl hmem



theorem uniqKeysItem_parts {it : UsageItem} (h : uniqKeysItem it = true) :
    uniqKeysOptVal it.defaultValue = true ∧ uniqKeysOptVal it.value = true := by
  cases it with
  | mk k vt ds dv v =>
    rw [uniqKeysItem_mk] at h
    exact ⟨((Bool.and_eq_true ..).mp h).1, ((Bool.and_eq_true ..).mp h).2⟩

theorem uniq_destDVFor (d1 : UsageItem) (B : ResourceUsage)
    (h : uniqKeysOptVal d1.defaultValue = true) :
    uniqKeysRU (destDVFor d1 B) = true := by
  rcases hdeq : d1.defaultValue with _ | x
  · simp [destDVFor, hdeq, uniqKeysRU_empty]
  · simpa [destDVFor, hdeq] using uniq_castRU h hdeq

theorem uniq_destVFor (d2 : UsageItem) (V : ResourceUsage)
    (h : uniqKeysItem d2 = true) : uniqKeysRU (destVFor d2 V) = true := by
  have hp := uniqKeysItem_parts h
  rcases hveq : d2.value with _ | x
  · rcases hdeq : d2.defaultValue with _ | y
    · simp [destVFor, hveq, hdeq, uniqKeysRU_empty]
    · simpa [destVFor, hveq, hdeq] using uniq_castRU hp.1 hdeq
  · simpa [destVFor, hveq] using uniq_castRU hp.2 hveq

mutual

/-- C8.  Merging trees whose item keys are pairwise distinct (recursively, at
every nesting level on both sides) yields a tree whose item keys are again
pairwise distinct at every nesting level: the merge never creates two items
with the same key in one `ResourceUsage`. -/
theorem c8_merge_preserves_uniq_keys (dest src : ResourceUsage)
    (opts : MergeResourceUsagesOpts)
    (hd : uniqKeysRU dest = true) (hs : uniqKeysRU src = true) :
    uniqKeysRU (mergeResourceUsages dest src opts) = true := by
  cases dest with
  | mk dn ditems =>
    cases src with
    | mk sn sitems =>
      rw [uniqKeysRU_mk] at hd hs
      have hd1 : (itemKeys ditems).Nodup :=
        of_decide_eq_true ((Bool.and_eq_true ..).mp hd).1
      have hd2 : uniqKeysItems ditems = true := ((Bool.and_eq_true ..).mp hd).2
      have hs1 : (itemKeys sitems).Nodup :=
        of_decide_eq_true ((Bool.and_eq_true ..).mp hs).1
      have hs2 : uniqKeysItems sitems = true := ((Bool.and_eq_true ..).mp hs).2
      have hmain := c8_items_go opts sitems ditems []
        (by simpa [itemKeys] using hd1) hd2 uniqKeysItems_nil hs1 hs2
        (by intro s1 _ hmem; simp [itemKeys] at hmem)
      have hres : mergeResourceUsages (.mk dn ditems) (.mk sn sitems) opts =
          .mk dn (mergeItemsGo ditems [] sitems opts) := by
        simp [mergeResourceUsages]
      rw [hres, uniqKeysRU_mk]
      simp [hmain.1, hmain.2]
termination_by sizeOf src
decreasing_by
  all_goals simp_wf
  all_goals subst_vars
  all_goals simp only [ResourceUsage.mk.sizeOf_spec]
  all_goals omega

/-- The merge loop keeps the combined key list duplicate-free and every item
recursively duplicate-free, given that the source keys are duplicate-free
and no pending source key already occurs among the appended items. -/
theorem c8_items_go (opts : MergeResourceUsagesOpts) (sitems : List UsageItem) :
    ∀ (orig extra : List UsageItem),
      (itemKeys orig ++ itemKeys extra).Nodup →
      uniqKeysItems orig = true → uniqKeysItems extra = true →
      (itemKeys sitems).Nodup → uniqKeysItems sitems = true →
      (∀ s1 ∈ sitems, s1.key ∉ itemKeys extra) →
      (itemKeys (mergeItemsGo orig extra sitems opts)).Nodup ∧
        uniqKeysItems (mergeItemsGo orig extra sitems opts) = true := by
  rcases hseq : sitems with _ | ⟨s, rest⟩
  · intro orig extra hkeys ho he _ _ _
    have hres : mergeItemsGo orig extra [] opts = orig ++ extra := by
      simp [mergeItemsGo]
    rw [hres, itemKeys_append, uniqKeysItems_append]
    exact ⟨hkeys, by simp [ho, he]⟩
  · intro orig extra hkeys ho he hsk hsu hfresh
    have hskey : s.key ∉ itemKeys rest := by
      rw [show itemKeys (s :: rest) = s.key :: itemKeys rest from by
        simp [itemKeys]] at hsk
      exact (List.nodup_cons.mp hsk).1
    have hsk2 : (itemKeys rest).Nodup := by
      rw [show itemKeys (s :: rest) = s.key :: itemKeys rest from by
        simp [itemKeys]] at hsk
      exact (List.nodup_cons.mp hsk).2
    have hsitem : uniqKeysItem s = true := by
      rw [uniqKeysItems_cons] at hsu
      exact ((Bool.and_eq_true ..).mp hsu).1
    have hsu2 : uniqKeysItems rest = true := by
      rw [uniqKeysItems_cons] at hsu
      exact ((Bool.and_eq_true ..).mp hsu).2
    rcases hidx : lastIdxOf orig s.key with _ | i
    · have hstep : mergeItemsGo orig extra (s :: rest) opts =
          mergeItemsGo orig
            (extra ++ [mergeItemInto (.mk s.key s.valueType "" none none) s opts])
            rest opts := by
        simp [mergeItemsGo, hidx]
      rw [hstep]
      have hnotorig : s.key ∉ itemKeys orig := lastIdxOf_none_iff.mp hidx
      have hnotextra : s.key ∉ itemKeys extra :=
        hfresh s (List.mem_cons_self s rest)
      have hnew : uniqKeysItem
          (mergeItemInto (.mk s.key s.valueType "" none none) s opts) = true :=
        c8_item_preserves_uniq_keys _ s opts (uniqKeysItem_fresh _ _) hsitem
      have hnewkey : (mergeItemInto (.mk s.key s.valueType "" none none) s opts).key
          = s.key := by
        rw [mergeItemInto_key]
        simp
      apply c8_items_go opts rest orig
        (extra ++ [mergeItemInto (.mk s.key s.valueType "" none none) s opts])
      · rw [itemKeys_append]
        rw [show itemKeys [mergeItemInto (.mk s.key s.valueType "" none none) s opts]
            = [s.key] from by simp [itemKeys, hnewkey]]
        rw [List.nodup_append] at hkeys ⊢
        refine ⟨hkeys.1, ?_, ?_⟩
        · rw [List.nodup_append]
          refine ⟨hkeys.2.1, List.nodup_singleton _, ?_⟩
          intro a ha hb
          simp at hb
          subst hb
          exact hnotextra ha
        · intro a ha
          simp [List.mem_append]
          constructor
          · exact fun hc => hkeys.2.2 ha hc
          · intro hc
            subst hc
            exact hnotorig ha
      · exact ho
      · rw [uniqKeysItems_append]
        simp [he, uniqKeysItems_cons, uniqKeysItems_nil, hnew]
      · exact hsk2
      · exact hsu2
      · intro s1 hs1
        rw [itemKeys_append]
        rw [show itemKeys [mergeItemInto (.mk s.key s.valueType "" none none) s opts]
            = [s.key] from by simp [itemKeys, hnewkey]]
        intro hmem
        rcases List.mem_append.mp hmem with hmem | hmem
        · exact hfresh s1 (List.mem_cons_of_mem s hs1) hmem
        · simp at hmem
          have hmm := List.mem_map_of_mem (fun it => it.key) hs1
          simp only [hmem] at hmm
          exact hskey hmm
    · have hlt : i < orig.length := lastIdxOf_lt_length hidx
      have hstep : mergeItemsGo orig extra (s :: rest) opts =
          mergeItemsGo (orig.set i (mergeItemInto (orig.getD i dfltItem) s opts))
            extra rest opts := by
        simp [mergeItemsGo, hidx]
      rw [hstep]
      have horig : uniqKeysItem (orig.getD i dfltItem) = true :=
        uniqKeysItems_getD i hlt ho
      have hnew : uniqKeysItem (mergeItemInto (orig.getD i dfltItem) s opts) = true :=
        c8_item_preserves_uniq_keys _ s opts horig hsitem
      apply c8_items_go opts rest _ extra
      · rw [itemKeys_set_merge orig i s opts hlt]
        exact hkeys
      · exact uniqKeysItems_set i ho hnew
      · exact he
      · exact hsk2
      · exact hsu2
      · exact fun s1 hs1 => hfresh s1 (List.mem_cons_of_mem s hs1)
termination_by sizeOf sitems
decreasing_by
  all_goals simp_wf
  all_goals subst_vars
  all_goals omega

/-- One merge-loop step preserves recursive key uniqueness of the item. -/
theorem c8_item_preserves_uniq_keys (d s : UsageItem)
    (opts : MergeResourceUsagesOpts)
    (hd : uniqKeysItem d = true) (hs : uniqKeysItem s = true) :
    uniqKeysItem (mergeItemInto d s opts) = true := by
  cases s with
  | mk sk svt sdesc sdv sv =>
    rw [uniqKeysItem_mk] at hs
    have hsdv := ((Bool.and_eq_true ..).mp hs).1
    have hsv := ((Bool.and_eq_true ..).mp hs).2
    have hrecD : ∀ (A B : ResourceUsage), uniqKeysRU A = true →
        sdv = some (.sub B) →
        uniqKeysRU (mergeResourceUsages A B opts) = true := by
      intro A B hA hB
      apply c8_merge_preserves_uniq_keys A B opts hA
      rw [hB] at hsdv
      simpa [uniqKeysOptVal] using hsdv
    have hrecV : ∀ (A B : ResourceUsage), uniqKeysRU A = true →
        sv = some (.sub B) →
        uniqKeysRU (mergeResourceUsages A B opts) = true := by
      intro A B hA hB
      apply c8_merge_preserves_uniq_keys A B opts hA
      rw [hB] at hsv
      simpa [uniqKeysOptVal] using hsv
    have hdparts := uniqKeysItem_parts hd
    have hd1 : uniqKeysItem (UsageItem.mk d.key
        (if opts.overrideValueType then svt else d.valueType)
        (if sdesc ≠ "" then sdesc else d.description) d.defaultValue d.value)
        = true := by
      rw [uniqKeysItem_mk]
      simp [hdparts.1, hdparts.2]
    by_cases hvt : svt = ValueType.subResourceUsage
    · have hstep : mergeItemInto d (.mk sk svt sdesc sdv sv) opts =
          mergeSubValueInto (mergeSubDefaultInto (UsageItem.mk d.key
            (if opts.overrideValueType then svt else d.valueType)
            (if sdesc ≠ "" then sdesc else d.description) d.defaultValue d.value)
            sdv opts) sv opts := by
        simp [mergeItemInto, hvt]
      rw [hstep]
      have hd2 : uniqKeysItem (mergeSubDefaultInto (UsageItem.mk d.key
          (if opts.overrideValueType then svt else d.valueType)
          (if sdesc ≠ "" then sdesc else d.description) d.defaultValue d.value)
          sdv opts) = true := by
        rcases hsdveq : sdv with _ | (n | q | st | xs | B)
        · simpa [mergeSubDefaultInto] using hd1
        · simpa [mergeSubDefaultInto] using hd1
        · simpa [mergeSubDefaultInto] using hd1
        · simpa [mergeSubDefaultInto] using hd1
        · simpa [mergeSubDefaultInto] using hd1
        · have hA := uniq_destDVFor (UsageItem.mk d.key
            (if opts.overrideValueType then svt else d.valueType)
            (if sdesc ≠ "" then sdesc else d.description) d.defaultValue d.value) B
            (by simpa using hdparts.1)
          have hM := hrecD _ B hA hsdveq
          simp at hM ⊢
          simp [mergeSubDefaultInto, uniqKeysItem_mk, uniqKeysOptVal, hM,
            hdparts.2]
      rcases hsveq : sv with _ | (n | q | st | xs | V)
      · simpa [mergeSubValueInto] using hd2
      · simpa [mergeSubValueInto] using hd2
      · simpa [mergeSubValueInto] using hd2
      · simpa [mergeSubValueInto] using hd2
      · simpa [mergeSubValueInto] using hd2
      · have hA := uniq_destVFor _ V hd2
        have hM := hrecV _ V hA hsveq
        have hd2parts := uniqKeysItem_parts hd2
        simp at hM hd2parts ⊢
        simp [mergeSubValueInto, uniqKeysItem_mk, uniqKeysOptVal, hM, hd2parts.1]
    · have hstep : mergeItemInto d (.mk sk svt sdesc sdv sv) opts =
          mergeScalarInto (UsageItem.mk d.key
            (if opts.overrideValueType then svt else d.valueType)
            (if sdesc ≠ "" then sdesc else d.description) d.defaultValue d.value)
            sdv sv := by
        simp [mergeItemInto, hvt]
      rw [hstep]
      rcases sdv with _ | dvx <;> rcases sv with _ | vx <;>
        simp_all [mergeScalarInto, uniqKeysItem_mk, uniqKeysOptVal]
termination_by sizeOf s
decreasing_by
  all_goals simp_wf
  all_goals subst_vars
  all_goals simp only [UsageItem.mk.sizeOf_spec, Option.some.sizeOf_spec,
    UsageValue.sub.sizeOf_spec]
  all_goals omega

end

/-- Witness for C8 at a concrete input: both trees have recursively unique
keys (with overlapping and fresh keys, and a nested sub-default), and so does
the merge result. -/
theorem c8_merge_preserves_uniq_keys_witness :
    uniqKeysRU (mergeResourceUsages
      (.mk "r" [.mk "a" .int64 "" none (some (.int 1))])
      (.mk "r" [.mk "a" .int64 "" (some (.int 2)) none,
        .mk "b" .subResourceUsage ""
          (some (.sub (.mk "n" [.mk "c" .string "" none none]))) none])
      ⟨true⟩) = true := by
  apply c8_merge_preserves_uniq_keys
  · simp [uniqKeysRU_mk, uniqKeysItems_cons, uniqKeysItems_nil, uniqKeysItem_mk,
      uniqKeysOptVal, itemKeys]
  · simp [uniqKeysRU_mk, uniqKeysItems_cons, uniqKeysItems_nil, uniqKeysItem_mk,
      uniqKeysOptVal, itemKeys]



/-! ### C1: estimation isolation -/

theorem attrGet_set_self (m : List (String × AttrVal)) (k : String) (v : AttrVal) :
    attrGet (attrSet m k v) k = v := by
  induction m with
  | nil => simp [attrSet, attrGet]
  | cons e rest ih =>
    rcases e with ⟨k2, v2⟩
    by_cases h : k2 = k
    · simp [attrSet, attrGet, h]
    · simp [attrSet, attrGet, h, ih]

theorem attrGet_set_ne (m : List (String × AttrVal)) (k k2 : String) (v : AttrVal)
    (h : k ≠ k2) : attrGet (attrSet m k v) k2 = attrGet m k2 := by
  induction m with
  | nil => simp [attrSet, attrGet, h]
  | cons e rest ih =>
    rcases e with ⟨k3, v3⟩
    by_cases h3 : k3 = k
    · subst h3
      simp [attrSet, attrGet, h]
    · simp [attrSet, attrGet, h3, ih]

theorem attrGet_itemsToMap_not_mem (items : List UsageItem)
    (acc : List (String × AttrVal)) (k : String) (h : k ∉ itemKeys items) :
    attrGet (itemsToMap items acc) k = attrGet acc k := by
  induction items generalizing acc with
  | nil => simp [itemsToMap]
  | cons it rest ih =>
    rcases it with ⟨k2, vt, ds, dv, v⟩
    have hk2 : k2 ≠ k := by
      intro hc
      subst hc
      exact h (by simp [itemKeys])
    have hrest : k ∉ itemKeys rest := by
      intro hc
      exact h (by simp [itemKeys] at hc ⊢; exact Or.inr hc)
    rcases v with _ | vv
    · simp [itemsToMap, ih _ hrest]
    · rw [show itemsToMap (⟨k2, vt, ds, dv, some vv⟩ :: rest) acc =
        itemsToMap rest (attrSet acc k2 (usageValToAttr vv)) from by
          simp [itemsToMap]]
      rw [ih _ hrest]
      exact attrGet_set_ne acc k2 k (usageValToAttr vv) hk2

theorem attrGet_itemsToMap (items : List UsageItem)
    (acc : List (String × AttrVal)) (k : String) (j : Nat)
    (hnd : (itemKeys items).Nodup) (hj : j < items.length)
    (hk : (items.getD j dfltItem).key = k) :
    attrGet (itemsToMap items acc) k =
      (match (items.getD j dfltItem).value with
       | some vv => usageValToAttr vv
       | none => attrGet acc k) := by
  induction items generalizing acc j with
  | nil => simp at hj
  | cons it rest ih =>
    rw [show itemKeys (it :: rest) = it.key :: itemKeys rest from by
      simp [itemKeys]] at hnd
    have hnd2 := List.nodup_cons.mp hnd
    cases j with
    | zero =>
      simp only [List.getD_cons_zero] at hk ⊢
      rcases it with ⟨k2, vt, ds, dv, v⟩
      simp only [UsageItem.key_mk] at hk
      subst hk
      rcases v with _ | vv
      · simp only [itemsToMap, UsageItem.value_mk]
        exact attrGet_itemsToMap_not_mem rest acc k2 hnd2.1
      · rw [show itemsToMap (⟨k2, vt, ds, dv, some vv⟩ :: rest) acc =
          itemsToMap rest (attrSet acc k2 (usageValToAttr vv)) from by
            simp [itemsToMap]]
        rw [attrGet_itemsToMap_not_mem rest _ k2 hnd2.1]
        simp [attrGet_set_self]
    | succ m =>
      have hm : m < rest.length := by simpa using hj
      rw [List.getD_cons_succ] at hk ⊢
      rcases it with ⟨k2, vt, ds, dv, v⟩
      have hk2ne : k2 ≠ k := by
        intro hc
        subst hc
        apply hnd2.1
        rw [← hk]
        exact getD_key_mem rest m hm
      rcases v with _ | vv
      · simp only [itemsToMap]
        exact ih acc m hnd2.2 hm hk
      · rw [show itemsToMap (⟨k2, vt, ds, dv, some vv⟩ :: rest) acc =
          itemsToMap rest (attrSet acc k2 (usageValToAttr vv)) from by
            simp [itemsToMap]]
        rw [ih _ m hnd2.2 hm hk]
        rcases (rest.getD m dfltItem).value with _ | vv2
        · simp [attrGet_set_ne acc k2 k _ hk2ne]
        · simp

theorem wfRU_mk (n : String) (its : List UsageItem) :
    wfRU (.mk n its) = (decide (itemKeys its).Nodup && wfItems its) := by
  simp [wfRU]

theorem wfItems_cons (a : UsageItem) (l : List UsageItem) :
    wfItems (a :: l) = (wfItem a && wfItems l) := by
  simp [wfItems]

theorem wfItems_mem {its : List UsageItem} {it : UsageItem}
    (h : wfItems its = true) (hm : it ∈ its) : wfItem it = true := by
  induction its with
  | nil => cases hm
  | cons a rest ih =>
    rw [wfItems_cons] at h
    rcases List.mem_cons.mp hm with hm | hm
    · subst hm
      exact ((Bool.and_eq_true ..).mp h).1
    · exact ih ((Bool.and_eq_true ..).mp h).2 hm



/-- The attribute a usage item's own map entry carries: its Value when
present, null (absent key) otherwise. -/
def expectedAttr (it : UsageItem) : AttrVal :=
  match it.value with
  | some vv => usageValToAttr vv
  | none => .null

mutual

/-- Round trip: merging a tree's own map back into the tree is the identity,
for trees whose keys are unique and whose present Values match their declared
types at every level.  This is the heart of estimation isolation: a failing
estimator that leaves the usage map untouched leaves the tree unchanged
through the unconditional merge-back. -/
theorem mergeBack_toMap_id (r : ResourceUsage) (addr : String)
    (h : wfRU r = true) :
    mergeResourceUsageWithUsageData r ⟨addr, r.toMap⟩ = r := by
  cases r with
  | mk n its =>
    rw [wfRU_mk] at h
    have hnd : (itemKeys its).Nodup :=
      of_decide_eq_true ((Bool.and_eq_true ..).mp h).1
    have hwits : wfItems its = true := ((Bool.and_eq_true ..).mp h).2
    have htm : (ResourceUsage.mk n its).toMap = itemsToMap its [] := by
      simp [ResourceUsage.toMap]
    have hagree : ∀ it ∈ its,
        (⟨addr, (ResourceUsage.mk n its).toMap⟩ : UsageData).get it.key =
          expectedAttr it := by
      intro it hm
      obtain ⟨j, hj, hgetD⟩ := mem_of_lastIdx hm
      have hkey : (its.getD j dfltItem).key = it.key := by rw [hgetD]
      have := attrGet_itemsToMap its [] it.key j hnd hj hkey
      rw [hgetD] at this
      rw [UsageData.get, htm, this]
      rcases hv : it.value with _ | vv
      · simp [expectedAttr, hv, attrGet]
      · simp [expectedAttr, hv]
    have hitems := mergeBack_items_id its
      ⟨addr, (ResourceUsage.mk n its).toMap⟩ hwits hagree
    simp only [mergeResourceUsageWithUsageData]
    rw [hitems]
termination_by sizeOf r
decreasing_by
  all_goals simp_wf
  all_goals subst_vars
  all_goals simp only [ResourceUsage.mk.sizeOf_spec]
  all_goals omega

/-- Round-trip identity, item-list level. -/
theorem mergeBack_items_id (items : List UsageItem) (u : UsageData)
    (hwf : wfItems items = true)
    (hagree : ∀ it ∈ items, u.get it.key = expectedAttr it) :
    mergeItemsWithUsageData items u = items := by
  rcases hseq : items with _ | ⟨it, rest⟩
  · simp [mergeItemsWithUsageData]
  · subst hseq
    rw [wfItems_cons] at hwf
    have h1 := mergeBack_item_id it u ((Bool.and_eq_true ..).mp hwf).1
      (hagree it (List.mem_cons_self it rest))
    have h2 := mergeBack_items_id rest u ((Bool.and_eq_true ..).mp hwf).2
      (fun x hx => hagree x (List.mem_cons_of_mem it hx))
    simp [mergeItemsWithUsageData, h1, h2]
termination_by sizeOf items
decreasing_by
  all_goals simp_wf
  all_goals subst_vars
  all_goals simp only [List.cons.sizeOf_spec]
  all_goals omega

/-- Round-trip identity, single-item level. -/
theorem mergeBack_item_id (it : UsageItem) (u : UsageData)
    (hwf : wfItem it = true) (hagree : u.get it.key = expectedAttr it) :
    mergeItemWithUsageData it u = it := by
  cases it with
  | mk k vt ds dv v =>
    simp only [UsageItem.key_mk] at hagree
    have hrec : ∀ base : ResourceUsage, v = some (.sub base) → wfRU base = true →
        mergeResourceUsageWithUsageData base ⟨k, base.toMap⟩ = base := by
      intro base hb hwfb
      exact mergeBack_toMap_id base k hwfb
    cases vt
    · rcases hveq : v with _ | vv
      · subst hveq
        rw [show expectedAttr (.mk k .int64 ds dv none) = .null from by
          simp [expectedAttr]] at hagree
        simp [mergeItemWithUsageData, UsageData.getInt, hagree]
      · subst hveq
        rcases vv with n | q | st | xs | r <;>
          try (simp [wfItem] at hwf)
        rw [show expectedAttr (.mk k .int64 ds dv (some (.int n))) = .int n from by
          simp [expectedAttr, usageValToAttr]] at hagree
        simp [mergeItemWithUsageData, UsageData.getInt, hagree]
    · rcases hveq : v with _ | vv
      · subst hveq
        rw [show expectedAttr (.mk k .float64 ds dv none) = .null from by
          simp [expectedAttr]] at hagree
        simp [mergeItemWithUsageData, UsageData.getFloat, hagree]
      · subst hveq
        rcases vv with n | q | st | xs | r <;>
          try (simp [wfItem] at hwf)
        rw [show expectedAttr (.mk k .float64 ds dv (some (.float q))) = .float q
          from by simp [expectedAttr, usageValToAttr]] at hagree
        simp [mergeItemWithUsageData, UsageData.getFloat, hagree]
    · rcases hveq : v with _ | vv
      · subst hveq
        rw [show expectedAttr (.mk k .string ds dv none) = .null from by
          simp [expectedAttr]] at hagree
        simp [mergeItemWithUsageData, UsageData.getString, hagree]
      · subst hveq
        rcases vv with n | q | st | xs | r <;>
          try (simp [wfItem] at hwf)
        rw [show expectedAttr (.mk k .string ds dv (some (.str st))) = .str st
          from by simp [expectedAttr, usageValToAttr]] at hagree
        simp [mergeItemWithUsageData, UsageData.getString, hagree]
    · rcases hveq : v with _ | vv
      · subst hveq
        rw [show expectedAttr (.mk k .stringArray ds dv none) = .null from by
          simp [expectedAttr]] at hagree
        simp [mergeItemWithUsageData, UsageData.getStringArray, hagree]
      · subst hveq
        rcases vv with n | q | st | xs | r <;>
          try (simp [wfItem] at hwf)
        rw [show expectedAttr (.mk k .stringArray ds dv (some (.strArray xs))) =
          .strArray xs from by simp [expectedAttr, usageValToAttr]] at hagree
        simp [mergeItemWithUsageData, UsageData.getStringArray, hagree]
    · rcases hveq : v with _ | vv
      · rw [hveq] at hagree
        rw [show expectedAttr (.mk k .subResourceUsage ds dv none) = .null from by
          simp [expectedAttr]] at hagree
        subst hveq
        rcases dv with _ | (n | q | st | xs | dtree)
        · simp [mergeItemWithUsageData, mergeSubItemWithUsageData]
        · simp [mergeItemWithUsageData, mergeSubItemWithUsageData]
        · simp [mergeItemWithUsageData, mergeSubItemWithUsageData]
        · simp [mergeItemWithUsageData, mergeSubItemWithUsageData]
        · simp [mergeItemWithUsageData, mergeSubItemWithUsageData]
        · cases dtree with
          | mk dn ditems =>
            simp only [UsageData.get] at hagree
            simp [mergeItemWithUsageData, mergeSubItemWithUsageData, hagree,
              UsageData.get, AttrVal.mapEntries, attrGet, AttrVal.isNull,
              List.filter]
      · rw [hveq] at hagree
        rcases vv with n | q | st | xs | base
        · rw [hveq] at hwf; simp [wfItem] at hwf
        · rw [hveq] at hwf; simp [wfItem] at hwf
        · rw [hveq] at hwf; simp [wfItem] at hwf
        · rw [hveq] at hwf; simp [wfItem] at hwf
        · have hwfb : wfRU base = true := by
            rw [hveq] at hwf
            simpa [wfItem] using hwf
          rw [show expectedAttr (.mk k .subResourceUsage ds dv (some (.sub base)))
            = .map base.toMap from by simp [expectedAttr, usageValToAttr]] at hagree
          have hb := hrec base hveq hwfb
          subst hveq
          simp [mergeItemWithUsageData, mergeSubItemWithUsageData, hagree,
            UsageData.get, AttrVal.mapEntries]
          rw [show (⟨k, base.toMap⟩ : UsageData) = ⟨k, attrGet u.attributes k |>.mapEntries⟩
            from by rw [show attrGet u.attributes k = AttrVal.map base.toMap from hagree]; simp [AttrVal.mapEntries]] at hb
          exact hb
termination_by sizeOf it
decreasing_by
  all_goals simp_wf
  all_goals subst_vars
  all_goals simp only [UsageItem.mk.sizeOf_spec, Option.some.sizeOf_spec,
    UsageValue.sub.sizeOf_spec]
  all_goals omega

end



/-- C1 (amended: the merge-back at sync.go line 92 runs whether or not the
estimation call failed, so the failed resource's tree is unchanged provided
its estimator left the usage map as it received it; the tree must also
satisfy the documented invariants — unique keys, values matching their
declared types — for the map round trip to be lossless).  If A's estimator
returns an error leaving the map untouched and B's estimator succeeds, the
sync records exactly {A: error}, counts both estimation attempts (and both
resources), keeps A's tree exactly the three-way merge of reference defaults,
schema and existing usage, and gives B the merge-back of its estimator's
output. -/
theorem c1_estimation_isolation (referenceFile : ReferenceFile)
    (usageFile : UsageFile) (A B : Resource)
    (fA fB : List (String × AttrVal) → EstimateResult)
    (eA : String) (mB2 : List (String × AttrVal))
    (hA : A.estimateUsage = some fA)
    (hB : B.estimateUsage = some fB)
    (hAerr : fA (buildResourceUsage referenceFile
        (resourceUsagesMap usageFile.resourceUsages) A).toMap =
      (some eA, (buildResourceUsage referenceFile
        (resourceUsagesMap usageFile.resourceUsages) A).toMap))
    (hWF : wfRU (buildResourceUsage referenceFile
        (resourceUsagesMap usageFile.resourceUsages) A) = true)
    (hBok : fB (buildResourceUsage referenceFile
        (resourceUsagesMap usageFile.resourceUsages) B).toMap = (none, mB2)) :
    (syncResourceUsages usageFile [A, B] referenceFile).1.resourceCount = 2 ∧
    (syncResourceUsages usageFile [A, B] referenceFile).1.estimationCount = 2 ∧
    (syncResourceUsages usageFile [A, B] referenceFile).1.estimationErrors =
      [(A.name, eA)] ∧
    (syncResourceUsages usageFile [A, B] referenceFile).2.resourceUsages =
      sortResourceUsages
        [buildResourceUsage referenceFile
          (resourceUsagesMap usageFile.resourceUsages) A,
         mergeResourceUsageWithUsageData
          (buildResourceUsage referenceFile
            (resourceUsagesMap usageFile.resourceUsages) B) ⟨B.name, mB2⟩]
        (usageFile.resourceUsages.map (fun r => r.name)) := by
  have hid := mergeBack_toMap_id (buildResourceUsage referenceFile
    (resourceUsagesMap usageFile.resourceUsages) A) A.name hWF
  have hstA : syncStep referenceFile
      (resourceUsagesMap usageFile.resourceUsages) ⟨0, 0, [], []⟩ A =
      ⟨1, 1, [(A.name, eA)],
        [buildResourceUsage referenceFile
          (resourceUsagesMap usageFile.resourceUsages) A]⟩ := by
    simp only [syncStep, hA]
    rw [hAerr]
    simp [hid]
  have hstB : syncStep referenceFile
      (resourceUsagesMap usageFile.resourceUsages)
      ⟨1, 1, [(A.name, eA)],
        [buildResourceUsage referenceFile
          (resourceUsagesMap usageFile.resourceUsages) A]⟩ B =
      ⟨2, 2, [(A.name, eA)],
        [buildResourceUsage referenceFile
          (resourceUsagesMap usageFile.resourceUsages) A,
         mergeResourceUsageWithUsageData
          (buildResourceUsage referenceFile
            (resourceUsagesMap usageFile.resourceUsages) B) ⟨B.name, mB2⟩]⟩ := by
    simp only [syncStep, hB]
    rw [hBok]
    simp
  simp only [syncResourceUsages, List.foldl, hstA, hstB]
  simp



/-- Counterexample to C1 as stated.  The merge-back of the estimation map
(sync.go lines 91-92) runs even when `EstimateUsage` returned an error, and
the map is passed to the estimator by reference; an estimator that mutates
the map before failing therefore changes the failed resource's tree.  Here
resource A's estimator writes k = 42 into the map and then errors, B's
estimator succeeds; the sync records {A: "boom"} and attempts both, but A's
final tree holds Value 42 for "k" — not its pre-estimation state (Value 1,
the merge of reference defaults, schema and existing usage) — refuting "A's
usage tree is unchanged from its pre-estimation state". -/
theorem c1_counterexample :
    (syncResourceUsages ⟨[]⟩
      [⟨"A", [.mk "k" .int64 "" none (some (.int 1))],
        some (fun m => (some "boom", attrSet m "k" (.int 42)))⟩,
       ⟨"B", [], some (fun m => (none, m))⟩]
      ⟨fun _ => none⟩).1.estimationErrors = [("A", "boom")] ∧
    (syncResourceUsages ⟨[]⟩
      [⟨"A", [.mk "k" .int64 "" none (some (.int 1))],
        some (fun m => (some "boom", attrSet m "k" (.int 42)))⟩,
       ⟨"B", [], some (fun m => (none, m))⟩]
      ⟨fun _ => none⟩).1.estimationCount = 2 ∧
    (syncResourceUsages ⟨[]⟩
      [⟨"A", [.mk "k" .int64 "" none (some (.int 1))],
        some (fun m => (some "boom", attrSet m "k" (.int 42)))⟩,
       ⟨"B", [], some (fun m => (none, m))⟩]
      ⟨fun _ => none⟩).2.resourceUsages =
      [.mk "A" [.mk "k" .int64 "" none (some (.int 42))], .mk "B" []] := by
  refine ⟨?_, ?_, ?_⟩ <;>
    simp [syncResourceUsages, syncStep, buildResourceUsage, resourceUsagesMap,
      mergeResourceUsages, mergeItemsGo, mergeItemInto, mergeScalarInto,
      lastIdxOf, ResourceUsage.toMap, itemsToMap, usageValToAttr, attrSet,
      mergeResourceUsageWithUsageData, mergeItemsWithUsageData,
      mergeItemWithUsageData, UsageData.getInt, UsageData.get, attrGet,
      sortResourceUsages, ruLess, resourceUsageHasValue, indexOf, dfltItem]

/-- Witness for the amended C1 at a concrete input: A's estimator fails
without touching the map, B's estimator writes j = 5 and succeeds. -/
theorem c1_estimation_isolation_witness :
    (syncResourceUsages ⟨[]⟩
      [⟨"A", [.mk "k" .int64 "" none (some (.int 1))],
        some (fun m => (some "boom", m))⟩,
       ⟨"B", [.mk "j" .int64 "" none none],
        some (fun m => (none, attrSet m "j" (.int 5)))⟩]
      ⟨fun _ => none⟩).1.estimationErrors = [("A", "boom")] ∧
    (syncResourceUsages ⟨[]⟩
      [⟨"A", [.mk "k" .int64 "" none (some (.int 1))],
        some (fun m => (some "boom", m))⟩,
       ⟨"B", [.mk "j" .int64 "" none none],
        some (fun m => (none, attrSet m "j" (.int 5)))⟩]
      ⟨fun _ => none⟩).1.estimationCount = 2 := by
  have h := c1_estimation_isolation ⟨fun _ => none⟩ ⟨[]⟩
    ⟨"A", [.mk "k" .int64 "" none (some (.int 1))],
      some (fun m => (some "boom", m))⟩
    ⟨"B", [.mk "j" .int64 "" none none],
      some (fun m => (none, attrSet m "j" (.int 5)))⟩
    (fun m => (some "boom", m))
    (fun m => (none, attrSet m "j" (.int 5)))
    "boom"
    (attrSet (buildResourceUsage ⟨fun _ => none⟩
      (resourceUsagesMap (⟨[]⟩ : UsageFile).resourceUsages)
      ⟨"B", [.mk "j" .int64 "" none none],
        some (fun m => (none, attrSet m "j" (.int 5)))⟩).toMap "j" (.int 5))
    rfl rfl rfl
    (by
      simp [buildResourceUsage, resourceUsagesMap, mergeResourceUsages,
        mergeItemsGo, mergeItemInto, mergeScalarInto, lastIdxOf, dfltItem,
        wfRU_mk, wfItems_cons, wfItems, wfItem, itemKeys])
    rfl
  exact ⟨h.2.2.1, h.2.1⟩



namespace HeapModel

/-! ### C10: the Value seeded from DefaultValue is the same heap object -/

/-- Keys of destination-side items. -/
def hItemKeys (items : List HItem) : List String :=
  items.map (fun i => i.key)

theorem Heap.get_set_self (h : Heap) (a : Nat) (n : HNode) :
    (h.set a n).get a = n := by
  simp [Heap.get, Heap.set, List.find?]

theorem hScalarInto_key (d1 : HItem) (sdv sv : Option UsageValue) :
    (hScalarInto d1 sdv sv).key = d1.key := by
  rcases sdv with _ | v1 <;> rcases sv with _ | v2 <;> simp [hScalarInto]

theorem hSubDefaultInto_key (h : Heap) (d1 : HItem) (sdv : Option UsageValue)
    (opts : MergeResourceUsagesOpts) :
    (hSubDefaultInto h d1 sdv opts).2.key = d1.key := by
  rcases sdv with _ | (n | q | st | xs | r)
  · simp [hSubDefaultInto]
  · simp [hSubDefaultInto]
  · simp [hSubDefaultInto]
  · simp [hSubDefaultInto]
  · simp [hSubDefaultInto]
  · rcases hdq : d1.defaultValue with _ | (v | a) <;> simp [hSubDefaultInto, hdq]

theorem hSubValueInto_key (h : Heap) (d2 : HItem) (sv : Option UsageValue)
    (opts : MergeResourceUsagesOpts) :
    (hSubValueInto h d2 sv opts).2.key = d2.key := by
  rcases sv with _ | (n | q | st | xs | r)
  · simp [hSubValueInto]
  · simp [hSubValueInto]
  · simp [hSubValueInto]
  · simp [hSubValueInto]
  · simp [hSubValueInto]
  · rcases hvq : d2.value with _ | (v | a)
    · rcases hdq : d2.defaultValue with _ | (v | a) <;>
        simp [hSubValueInto, hvq, hdq]
    · simp [hSubValueInto, hvq]
    · simp [hSubValueInto, hvq]

theorem mergeItemIntoH_key (h : Heap) (d : HItem) (s : UsageItem)
    (opts : MergeResourceUsagesOpts) :
    (mergeItemIntoH h d s opts).2.key = d.key := by
  cases s with
  | mk sk svt sdesc sdv sv =>
    by_cases hvt : svt = ValueType.subResourceUsage
    · simp [mergeItemIntoH, hvt, hSubValueInto_key, hSubDefaultInto_key]
    · simp [mergeItemIntoH, hvt, hScalarInto_key]

theorem hSubDefaultInto_value (h : Heap) (d1 : HItem) (sdv : Option UsageValue)
    (opts : MergeResourceUsagesOpts) :
    (hSubDefaultInto h d1 sdv opts).2.value = d1.value := by
  rcases sdv with _ | (n | q | st | xs | r)
  · simp [hSubDefaultInto]
  · simp [hSubDefaultInto]
  · simp [hSubDefaultInto]
  · simp [hSubDefaultInto]
  · simp [hSubDefaultInto]
  · rcases hdq : d1.defaultValue with _ | (v | a) <;> simp [hSubDefaultInto, hdq]

theorem hSubDefaultInto_default_ref (h : Heap) (d1 : HItem)
    (sdv : Option UsageValue) (opts : MergeResourceUsagesOpts) (a : Nat)
    (hd : d1.defaultValue = some (.ref a)) :
    (hSubDefaultInto h d1 sdv opts).2.defaultValue = some (.ref a) := by
  rcases sdv with _ | (n | q | st | xs | r)
  · simpa [hSubDefaultInto] using hd
  · simpa [hSubDefaultInto] using hd
  · simpa [hSubDefaultInto] using hd
  · simpa [hSubDefaultInto] using hd
  · simpa [hSubDefaultInto] using hd
  · simp [hSubDefaultInto, hd]

theorem hLastIdxOf_lt_length {items : List HItem} {k : String} {i : Nat}
    (h : hLastIdxOf items k = some i) : i < items.length := by
  induction items generalizing i with
  | nil => simp [hLastIdxOf] at h
  | cons it rest ih =>
    rcases hr : hLastIdxOf rest k with _ | m
    · simp only [hLastIdxOf, hr] at h
      split at h
      · simp at h
        simp only [List.length_cons]
        omega
      · cases h
    · simp only [hLastIdxOf, hr] at h
      simp at h
      have hm := ih hr
      simp only [List.length_cons]
      omega

theorem hLastIdxOf_key {items : List HItem} {k : String} {i : Nat}
    (h : hLastIdxOf items k = some i) : (items.getD i hDfltItem).key = k := by
  induction items generalizing i with
  | nil => simp [hLastIdxOf] at h
  | cons it rest ih =>
    rcases hr : hLastIdxOf rest k with _ | m
    · simp only [hLastIdxOf, hr] at h
      split at h
      · rename_i hkey
        simp at h
        subst h
        simpa using hkey
      · cases h
    · simp only [hLastIdxOf, hr] at h
      simp at h
      subst h
      simpa using ih hr

theorem hGetD_key_mem (orig : List HItem) (i : Nat) (h : i < orig.length) :
    (orig.getD i hDfltItem).key ∈ hItemKeys orig := by
  have : orig.getD i hDfltItem = orig[i] := by
    simp [List.getD, List.getElem?_eq_getElem h]
  rw [this]
  exact List.mem_map_of_mem _ (List.getElem_mem h)

theorem hKeys_set_merge (h : Heap) (orig : List HItem) (i : Nat) (s : UsageItem)
    (opts : MergeResourceUsagesOpts) (hlt : i < orig.length) :
    hItemKeys (orig.set i (mergeItemIntoH h (orig.getD i hDfltItem) s opts).2) =
      hItemKeys orig := by
  unfold hItemKeys
  rw [List.map_set, mergeItemIntoH_key]
  have hlen : i < (orig.map (fun it => it.key)).length := by simpa using hlt
  have hkk : (orig.getD i hDfltItem).key =
      (orig.map (fun it => it.key))[i] := by
    simp [List.getD, List.getElem?_eq_getElem hlt]
  rw [hkk, list_set_self]

theorem mergeItemsH_keys (opts : MergeResourceUsagesOpts)
    (sitems : List UsageItem) :
    ∀ (h : Heap) (orig extra : List HItem) (k : String),
      (k ∈ hItemKeys orig ∨ k ∈ hItemKeys extra ∨ k ∈ itemKeys sitems) →
      k ∈ hItemKeys ((mergeItemsH h orig extra sitems opts).2.1 ++
        (mergeItemsH h orig extra sitems opts).2.2) := by
  induction sitems with
  | nil =>
    intro h orig extra k hk
    have hstep : mergeItemsH h orig extra [] opts = (h, orig, extra) := by
      simp [mergeItemsH]
    rw [hstep]
    unfold hItemKeys at *
    rw [List.map_append]
    rcases hk with hk | hk | hk
    · exact List.mem_append_left _ hk
    · exact List.mem_append_right _ hk
    · simp [itemKeys] at hk
  | cons s rest ih =>
    intro h orig extra k hk
    rcases hidx : hLastIdxOf orig s.key with _ | i
    · have hstep : mergeItemsH h orig extra (s :: rest) opts =
          mergeItemsH (mergeItemIntoH h ⟨s.key, s.valueType, "", none, none⟩ s opts).1
            orig
            (extra ++ [(mergeItemIntoH h ⟨s.key, s.valueType, "", none, none⟩ s opts).2])
            rest opts := by
        simp [mergeItemsH, hidx]
      rw [hstep]
      apply ih
      rcases hk with hk | hk | hk
      · exact Or.inl hk
      · refine Or.inr (Or.inl ?_)
        unfold hItemKeys at *
        rw [List.map_append]
        exact List.mem_append_left _ hk
      · unfold itemKeys at hk
        rw [List.map_cons] at hk
        rcases List.mem_cons.mp hk with hk | hk
        · refine Or.inr (Or.inl ?_)
          unfold hItemKeys
          rw [List.map_append]
          refine List.mem_append_right _ ?_
          simp [mergeItemIntoH_key, hk]
        · exact Or.inr (Or.inr hk)
    · have hlt : i < orig.length := hLastIdxOf_lt_length hidx
      have hstep : mergeItemsH h orig extra (s :: rest) opts =
          mergeItemsH (mergeItemIntoH h (orig.getD i hDfltItem) s opts).1
            (orig.set i (mergeItemIntoH h (orig.getD i hDfltItem) s opts).2)
            extra rest opts := by
        simp [mergeItemsH, hidx]
      rw [hstep]
      apply ih
      rw [hKeys_set_merge h orig i s opts hlt]
      rcases hk with hk | hk | hk
      · exact Or.inl hk
      · exact Or.inr (Or.inl hk)
      · unfold itemKeys at hk
        rw [List.map_cons] at hk
        rcases List.mem_cons.mp hk with hk | hk
        · refine Or.inl ?_
          rw [hk, ← hLastIdxOf_key hidx]
          exact hGetD_key_mem orig i hlt
        · exact Or.inr (Or.inr hk)

theorem mergeH_keys (h : Heap) (a : Nat) (src : ResourceUsage)
    (opts : MergeResourceUsagesOpts) (k : String)
    (hk : k ∈ itemKeys src.items) :
    k ∈ hItemKeys ((mergeH h a src opts).get a).items := by
  cases src with
  | mk sn sitems =>
    have hstep : mergeH h a (.mk sn sitems) opts =
        (mergeItemsH h (h.get a).items [] sitems opts).1.set a
          ⟨(h.get a).name, (mergeItemsH h (h.get a).items [] sitems opts).2.1 ++
            (mergeItemsH h (h.get a).items [] sitems opts).2.2⟩ := by
      simp [mergeH]
    rw [hstep, Heap.get_set_self]
    exact mergeItemsH_keys opts sitems h (h.get a).items [] k
      (Or.inr (Or.inr (by simpa using hk)))

/-- When the pipeline destination item has no Value and its DefaultValue is
a reference, a present sub-tree source Value is merged into that very node
and the reference is copied into Value (sync.go line 144). -/
theorem hSubValueInto_seed (h : Heap) (d2 : HItem) (svTree : ResourceUsage)
    (opts : MergeResourceUsagesOpts) (a : Nat)
    (h1 : d2.value = none) (h2 : d2.defaultValue = some (.ref a)) :
    hSubValueInto h d2 (some (.sub svTree)) opts =
      (mergeH h a svTree opts, { d2 with value := some (.ref a) }) := by
  simp [hSubValueInto, h1, h2]

/-- C10.  When the destination item's Value is absent and its DefaultValue is
a reference to heap node `a`, merging a source item with a present
`SubResourceUsage` Value makes the destination Value that same reference `a`
(sync.go line 144 copies the pointer, not the tree), so the item's
DefaultValue and Value afterwards denote one and the same sub-tree — in
particular every item key of the source Value, merged into node `a`, is
visible through both fields. -/
theorem c10_value_aliases_default (h : Heap) (d : HItem) (s : UsageItem)
    (opts : MergeResourceUsagesOpts) (a : Nat) (svTree : ResourceUsage)
    (hdv : d.defaultValue = some (.ref a)) (hv : d.value = none)
    (hsvt : s.valueType = ValueType.subResourceUsage)
    (hsv : s.value = some (.sub svTree)) :
    (mergeItemIntoH h d s opts).2.value = some (.ref a) ∧
    (mergeItemIntoH h d s opts).2.defaultValue = some (.ref a) ∧
    (mergeItemIntoH h d s opts).2.value = (mergeItemIntoH h d s opts).2.defaultValue ∧
    (∀ k ∈ itemKeys svTree.items,
      k ∈ hItemKeys (((mergeItemIntoH h d s opts).1.get a).items)) := by
  cases s with
  | mk sk svt sdesc sdv sv =>
    simp only [UsageItem.valueType_mk, UsageItem.value_mk] at hsvt hsv
    subst hsvt hsv
    have hd2v : (hSubDefaultInto h
        ⟨d.key, (if opts.overrideValueType then ValueType.subResourceUsage
          else d.valueType),
          (if sdesc ≠ "" then sdesc else d.description),
          d.defaultValue, d.value⟩ sdv opts).2.value = none := by
      rw [hSubDefaultInto_value]
      simpa using hv
    have hd2d : (hSubDefaultInto h
        ⟨d.key, (if opts.overrideValueType then ValueType.subResourceUsage
          else d.valueType),
          (if sdesc ≠ "" then sdesc else d.description),
          d.defaultValue, d.value⟩ sdv opts).2.defaultValue = some (.ref a) := by
      apply hSubDefaultInto_default_ref
      simpa using hdv
    have hval := hSubValueInto_seed
      (hSubDefaultInto h
        ⟨d.key, (if opts.overrideValueType then ValueType.subResourceUsage
          else d.valueType),
          (if sdesc ≠ "" then sdesc else d.description),
          d.defaultValue, d.value⟩ sdv opts).1
      (hSubDefaultInto h
        ⟨d.key, (if opts.overrideValueType then ValueType.subResourceUsage
          else d.valueType),
          (if sdesc ≠ "" then sdesc else d.description),
          d.defaultValue, d.value⟩ sdv opts).2
      svTree opts a hd2v hd2d
    simp only [mergeItemIntoH, reduceIte]
    rw [hval]
    refine ⟨rfl, hd2d, hd2d.symm, ?_⟩
    intro k hk
    exact mergeH_keys _ a svTree opts k hk

/-- Witness for C10 at a concrete input: the destination item's DefaultValue
is a reference to node 0; after merging a source Value sub-tree {v: 7}, the
item's Value and DefaultValue are both that same reference and node 0 shows
key "v". -/
theorem c10_value_aliases_default_witness :
    (mergeItemIntoH ⟨1, [(0, ⟨"D", [⟨"w", .int64, "", none, none⟩]⟩)]⟩
        ⟨"k", .subResourceUsage, "", some (.ref 0), none⟩
        (.mk "k" .subResourceUsage "" none
          (some (.sub (.mk "SV" [.mk "v" .int64 "" none (some (.int 7))]))))
        ⟨false⟩).2.value = some (.ref 0) ∧
    (mergeItemIntoH ⟨1, [(0, ⟨"D", [⟨"w", .int64, "", none, none⟩]⟩)]⟩
        ⟨"k", .subResourceUsage, "", some (.ref 0), none⟩
        (.mk "k" .subResourceUsage "" none
          (some (.sub (.mk "SV" [.mk "v" .int64 "" none (some (.int 7))]))))
        ⟨false⟩).2.defaultValue = some (.ref 0) ∧
    "v" ∈ hItemKeys (((mergeItemIntoH ⟨1, [(0, ⟨"D", [⟨"w", .int64, "", none, none⟩]⟩)]⟩
        ⟨"k", .subResourceUsage, "", some (.ref 0), none⟩
        (.mk "k" .subResourceUsage "" none
          (some (.sub (.mk "SV" [.mk "v" .int64 "" none (some (.int 7))]))))
        ⟨false⟩).1.get 0).items) := by
  have h := c10_value_aliases_default
    ⟨1, [(0, ⟨"D", [⟨"w", .int64, "", none, none⟩]⟩)]⟩
    ⟨"k", .subResourceUsage, "", some (.ref 0), none⟩
    (.mk "k" .subResourceUsage "" none
      (some (.sub (.mk "SV" [.mk "v" .int64 "" none (some (.int 7))]))))
    ⟨false⟩ 0 (.mk "SV" [.mk "v" .int64 "" none (some (.int 7))])
    rfl rfl rfl rfl
  exact ⟨h.1, h.2.1, h.2.2.2 "v" (by simp [itemKeys])⟩

end HeapModel


end UsageSync
